import Mathlib

/-!
Verification of the code-listing synchronization pipeline of
`the-ray-tracing-road-to-rust` (scripts `import-code.mjs`, `export-code.mjs`,
`util.mjs`).

The JavaScript sources are shallowly embedded: JS strings are Lean `String`s,
with character-level operations (regex scans, slices) carried out on `.data`
(the underlying `List Char`); JS numbers occurring here are natural numbers
(all are line numbers / counts parsed from diff hunk headers); the
side-effecting pipeline functions are embedded as pure state-passing
functions whose `console.log` error reports are collected into explicit
error lists.
-/

namespace RayTracingRoad

/-- A parsed diff hunk header `@@ -start1,count1 +start2,count2 @@`
(the `diffRange` record of `getGitCommits`). -/
structure DiffRange where
  start1 : Nat
  count1 : Nat
  start2 : Nat
  count2 : Nat
deriving Repr, DecidableEq

/-- `let l = 1; let lineMap = new Map(commit.code.split("\n").map((e) => [l++, e]))`:
1-based lookup of a line of the new file; keys start at 1, so 0 is absent. -/
def lineGet (lines : List String) (n : Nat) : Option String :=
  if n = 0 then none else lines.get? (n - 1)

/-- The `PREFER_NEWLINE_UPFRONT` constant of `importCodeFromGitToMdx`. -/
def PREFER_NEWLINE_UPFRONT : Bool := true

/-- The body of the per-hunk branch of the highlight-string loop of
`importCodeFromGitToMdx`: a hunk with `count2 == 1` renders as the bare
line number `start2`; otherwise the range `start2 - (start2+count2-1)`,
shifted back by one when `lineMap.get(hiEnd) == "" && hiStart != 1 &&
lineMap.get(hiStart - 1) == ""`. -/
def renderPiece (lines : List String) (r : DiffRange) : String :=
  if r.count2 == 1 then
    toString r.start2
  else
    let hiStart := r.start2
    let hiEnd := r.start2 + r.count2 - 1
    let p :=
      if PREFER_NEWLINE_UPFRONT &&
          (lineGet lines hiEnd == some "" && hiStart != 1 &&
            lineGet lines (hiStart - 1) == some "") then
        (hiStart - 1, hiEnd - 1)
      else
        (hiStart, hiEnd)
    toString p.1 ++ "-" ++ toString p.2

/-- One iteration of the highlight-string loop of
`importCodeFromGitToMdx`: the accumulator pairs the `hiStr` built so far
with the `first` flag; a hunk with `count2 == 0` is skipped (`continue`),
otherwise a comma is appended unless this is the first rendered piece, and
then the rendered piece is appended. -/
def hiStep (lines : List String) (acc : String × Bool) (r : DiffRange) :
    String × Bool :=
  if r.count2 == 0 then acc
  else
    let acc := if acc.2 then (acc.1, false) else (acc.1 ++ ",", false)
    (acc.1 ++ renderPiece lines r, acc.2)

/-- The highlight-string loop of `importCodeFromGitToMdx`, folded over the
commit's diff ranges. -/
def buildHiStrCore (lines : List String) (ranges : List DiffRange)
    (acc : String × Bool) : String × Bool :=
  ranges.foldl (hiStep lines) acc

/-- `hiStr` as built by `importCodeFromGitToMdx` from a commit's diff
ranges and the line map of the commit's (new) file content. -/
def buildHiStr (ranges : List DiffRange) (lines : List String) : String :=
  (buildHiStrCore lines ranges ("\x7b", true)).1 ++ "\x7d"

/-- JS `s.split(sep)` for a one-character separator: the chunks between
occurrences of `sep` (an empty chunk between adjacent separators and at
the ends). -/
def splitOnCharAux (sep : Char) (cur : List Char) : List Char → List (List Char)
  | [] => [cur.reverse]
  | c :: rest =>
    if c = sep then cur.reverse :: splitOnCharAux sep [] rest
    else splitOnCharAux sep (c :: cur) rest

/-- `commit.code.split("\n")` : the line list of a file's content. -/
def splitLines (s : String) : List String :=
  (splitOnCharAux '\n' [] s.data).map (fun l => ⟨l⟩)

/-- JS `parseInt` on the tokens occurring in diff hunk headers (always
decimal digit runs there; `parseInt` reads the leading digit run). -/
def jsParseInt (cs : List Char) : Nat :=
  (cs.takeWhile Char.isDigit).foldl (fun n c => n * 10 + (c.toNat - '0'.toNat)) 0

/-- One side of a hunk header (`m[1]` or `m[2]` of the regex
`\@\@\s\-(\S+)\s+\+(\S+)\s+\@\@`), turned into `(start, count)` exactly as
`getGitCommits` does: split on `","` when present, otherwise the bare
start with the count left at its initialized value 1. -/
def parseHunkPair (w : List Char) : Nat × Nat :=
  if w.contains ',' then
    let tokens := splitOnCharAux ',' [] w
    (jsParseInt (tokens.headD []), jsParseInt (tokens.getD 1 []))
  else
    (jsParseInt w, 1)

/-- Attempt of the regex `\@\@\s\-(\S+)\s+\+(\S+)\s+\@\@` at the head of
the character list.  `\S+` runs are maximal non-whitespace runs and `\s+`
runs are maximal whitespace runs: since every run is followed by a
mandatory character of the opposite class, the regex engine cannot
backtrack into a shorter run. -/
def matchHunkAt (cs : List Char) : Option (List Char × List Char) :=
  match cs with
  | '@' :: '@' :: c :: r =>
    if c.isWhitespace then
      match r with
      | '-' :: r1 =>
        let w1 := r1.takeWhile (fun c => !c.isWhitespace)
        if w1.isEmpty then none
        else
          let r2 := r1.drop w1.length
          let ws1 := r2.takeWhile (fun c => c.isWhitespace)
          if ws1.isEmpty then none
          else
            match r2.drop ws1.length with
            | '+' :: r3 =>
              let w2 := r3.takeWhile (fun c => !c.isWhitespace)
              if w2.isEmpty then none
              else
                let r4 := r3.drop w2.length
                let ws2 := r4.takeWhile (fun c => c.isWhitespace)
                if ws2.isEmpty then none
                else
                  match r4.drop ws2.length with
                  | '@' :: '@' :: _ => some (w1, w2)
                  | _ => none
            | _ => none
      | _ => none
    else none
  | _ => none

/-- The unanchored regex scan: try the hunk pattern at every position,
left to right, returning the first match's two captures. -/
def findHunk : List Char → Option (List Char × List Char)
  | [] => none
  | c :: rest =>
    match matchHunkAt (c :: rest) with
    | some r => some r
    | none => findHunk rest

/-- `line.match(/\@\@\s\-(\S+)\s+\+(\S+)\s+\@\@/)` followed by the
`diffRange` assembly of `getGitCommits` (defaults `{start1:0, count1:1,
start2:0, count2:1}`, each side overwritten from the captured token). -/
def parseDiffRangeOfLine (line : String) : Option DiffRange :=
  (findHunk line.data).map fun w =>
    let p1 := parseHunkPair w.1
    let p2 := parseHunkPair w.2
    ⟨p1.1, p1.2, p2.1, p2.2⟩

/-!
The highlight-range derivation as the specification describes it.

`renderPieceAmended` renders one hunk following the spec's rule with the
blank-line condition read off the code: the shift applies when the line
*at* the computed end is blank (the last highlighted line), the computed
start is not line 1, and the line immediately before the computed start is
blank.  `renderPieceClaimed` is the rule exactly as the claim states it:
the shift tests the line immediately *after* the computed end instead. -/

/-- Spec-style rendering of one hunk, blank test at the computed end. -/
def renderPieceAmended (lines : List String) (r : DiffRange) : String :=
  if r.count2 = 1 then
    toString r.start2
  else
    let s := r.start2
    let e := r.start2 + r.count2 - 1
    if lineGet lines e = some "" ∧ s ≠ 1 ∧ lineGet lines (s - 1) = some "" then
      toString (s - 1) ++ "-" ++ toString (e - 1)
    else
      toString s ++ "-" ++ toString e

/-- Spec-style rendering of one hunk, blank test on the line immediately
after the computed end (the claim's wording). -/
def renderPieceClaimed (lines : List String) (r : DiffRange) : String :=
  if r.count2 = 1 then
    toString r.start2
  else
    let s := r.start2
    let e := r.start2 + r.count2 - 1
    if lineGet lines (e + 1) = some "" ∧ s ≠ 1 ∧ lineGet lines (s - 1) = some "" then
      toString (s - 1) ++ "-" ++ toString (e - 1)
    else
      toString s ++ "-" ++ toString e

/-- Each piece after the first preceded by a comma. -/
def commaJoinAll : List String → String
  | [] => ""
  | p :: rest => "," ++ p ++ commaJoinAll rest

/-- Pieces joined with commas. -/
def joinCommas : List String → String
  | [] => ""
  | p :: rest => p ++ commaJoinAll rest

/-- The highlight annotation as the spec describes it (with the
end-of-range blank test): skip hunks with `count2 = 0`, render each piece,
join with commas, wrap in braces. -/
def buildHiStrAmended (ranges : List DiffRange) (lines : List String) : String :=
  "\x7b" ++
    joinCommas ((ranges.filter (fun r => r.count2 ≠ 0)).map (renderPieceAmended lines)) ++
    "\x7d"

/-- The highlight annotation exactly as the claim states it (blank test on
the line after the computed end). -/
def buildHiStrClaimed (ranges : List DiffRange) (lines : List String) : String :=
  "\x7b" ++
    joinCommas ((ranges.filter (fun r => r.count2 ≠ 0)).map (renderPieceClaimed lines)) ++
    "\x7d"

/-!
Export side (`export-code.mjs`) and the commit reader's trailing-newline
normalization (`getGitCommits`). -/

/-- `fs.writeFileSync(base + "/src/" + listing.filename, listing.code + "\n")`:
the file content written by `exportCodeFromMdxToGit`. -/
def exportFileContent (code : String) : String := code ++ "\n"

/-- The path of an exported listing relative to the repository root:
`"src/" + listing.filename`. -/
def exportFilePath (filename : String) : String := "src/" ++ filename

/-- `if (code.slice(-1) == "\n") { code = code.slice(0, -1) }` in
`getGitCommits`: trim exactly one trailing newline when present. -/
def trimLastNewline (s : String) : String :=
  if s.data.getLast? = some '\n' then ⟨s.data.dropLast⟩ else s

/-!
`updateHiStrInMdxNodeMeta` (the meta-string rewrite inside
`importCodeFromGitToMdx`).  The regex `/{.*}/` matches (on the single-line
meta string) from the first `\x7b` to the last `\x7d` provided some
`\x7d` follows the first `\x7b`; `String.replace` substitutes the
computed `hiStr` for that whole span. -/

/-- Whether `/{.*}/` matches: some closing brace occurs after the first
opening brace. -/
def hasBraceSpan (cs : List Char) : Bool :=
  match cs.dropWhile (fun c => c ≠ '{') with
  | [] => false
  | _ :: rest => rest.contains '}'

/-- The result of `meta.replace(/{.*}/, repl)` when the regex matches:
everything before the first opening brace, the replacement, then
everything after the last closing brace. -/
def replaceBraceSpan (cs : List Char) (repl : List Char) : List Char :=
  cs.takeWhile (fun c => c ≠ '{') ++ repl ++ (cs.reverse.takeWhile (fun c => c ≠ '}')).reverse

/-- JS `meta.trimEnd()`: strip trailing whitespace. -/
def jsTrimEnd (s : String) : String :=
  ⟨(s.data.reverse.dropWhile Char.isWhitespace).reverse⟩

/-- `updateHiStrInMdxNodeMeta(hiStr, node)` from `importCodeFromGitToMdx`,
returning the new `node.meta`: if the meta string contains a
brace-delimited span, replace that span with `hiStr`; otherwise append
`" " + hiStr` after trimming trailing whitespace. -/
def updateHiStrInMdxNodeMeta (hiStr : String) (meta : String) : String :=
  if hasBraceSpan meta.data then ⟨replaceBraceSpan meta.data hiStr.data⟩
  else jsTrimEnd meta ++ " " ++ hiStr

/-!
The listing metadata parser `parseMdAstNodeMeta` of `util.mjs` and the
listing extractor `getMdxListingsByLang`. -/

/-- A fenced code block node of the parsed document AST (the fields of a
remark `code` node that the pipeline reads). -/
structure MdxNode where
  lang : String
  meta : Option String
  value : String
deriving DecidableEq, Repr

/-- The record returned by `parseMdAstNodeMeta`. -/
structure NodeMeta where
  lang : String
  filename : String
  title : String
  addCargoDep : String
  genImage : Bool
deriving DecidableEq, Repr

/-- The anchored regex `^filename="(\S+) \| ([^"]*)"(.*)$` applied to the
(single-line) meta string: the literal prefix `filename="`, a maximal
nonempty non-whitespace run, the literal `" | "` (so the split is at the
first `" | "` after the path), then everything up to the first following
quote, which must exist.  `\S+` cannot backtrack below the maximal run
because the next mandatory character is a space. -/
def parseFilenameToken (cs : List Char) : Option (List Char × List Char) :=
  let pre := "filename=\"".data
  if pre.isPrefixOf cs then
    let r := cs.drop pre.length
    let w := r.takeWhile (fun c => !c.isWhitespace)
    if w.isEmpty then none
    else
      let r2 := r.drop w.length
      if " | ".data.isPrefixOf r2 then
        let r3 := r2.drop 3
        let t := r3.takeWhile (fun c => c ≠ '"')
        if (r3.drop t.length).isEmpty then none
        else some (w, t)
      else none
  else none

/-- The unanchored regex `pre("([^"]*)"` scan (used for
`addCargoDep="([^"]*)"`): at each position try the literal prefix then a
quoted capture; on failure resume at the next position. -/
def findQuotedToken (pre : List Char) : List Char → Option (List Char)
  | [] => none
  | c :: rest =>
    (if pre.isPrefixOf (c :: rest) then
      let r := (c :: rest).drop pre.length
      let t := r.takeWhile (fun c => c ≠ '"')
      if (r.drop t.length).isEmpty then none else some t
    else none).orElse (fun _ => findQuotedToken pre rest)

/-- Whether the word `w` occurs at the head of `cs` with a whitespace or
end-of-string boundary after it. -/
def wordHere (w cs : List Char) : Bool :=
  w.isPrefixOf cs &&
    (match cs.drop w.length with
     | [] => true
     | c :: _ => c.isWhitespace)

/-- Scan for `\s` followed by the bounded word. -/
def hasWordAux (w : List Char) : List Char → Bool
  | [] => false
  | c :: rest => (c.isWhitespace && wordHere w rest) || hasWordAux w rest

/-- The regex `(^|\s)w(\s|$)`: the word bounded by whitespace or the
string ends. -/
def hasWord (w cs : List Char) : Bool :=
  wordHere w cs || hasWordAux w cs

/-- `parseMdAstNodeMeta(node)` from `util.mjs`: defaults `{lang:
node.lang, filename: "", title: "", addCargoDep: "", genImage: false}`,
then the anchored `filename=` pattern fills `filename`/`title`, the
unanchored `addCargoDep="..."` pattern fills `addCargoDep`, and the
word-bounded `genImage` flag sets `genImage`.  (The JS guard `!node.meta`
also early-returns on the empty string; the result is the same record
either way.) -/
def parseMdAstNodeMeta (node : MdxNode) : NodeMeta :=
  let base : NodeMeta := ⟨node.lang, "", "", "", false⟩
  match node.meta with
  | none => base
  | some meta =>
    let m1 :=
      match parseFilenameToken meta.data with
      | some ft => { base with filename := ⟨ft.1⟩, title := ⟨ft.2⟩ }
      | none => base
    let m2 :=
      match findQuotedToken "addCargoDep=\"".data meta.data with
      | some d => { m1 with addCargoDep := ⟨d⟩ }
      | none => m1
    if hasWord "genImage".data meta.data then { m2 with genImage := true } else m2

/-- One extracted listing (the record pushed by `getMdxListingsByLang`). -/
structure MdxListing where
  lang : String
  filename : String
  title : String
  addCargoDep : String
  genImage : Bool
  code : String
deriving DecidableEq, Repr

/-- A tutorial document: its path and its fenced code-block nodes (the
only AST nodes the pipeline visits). -/
structure MdxDoc where
  filename : String
  nodes : List MdxNode
deriving DecidableEq, Repr

/-- `const ALLOW_LANGS = ["rust", "cpp"]`. -/
def ALLOW_LANGS : List String := ["rust", "cpp"]

/-- The body of the `visit(ast, "code", ...)` callback of
`getMdxListingsByLang`: skip nodes with null meta, skip disallowed
languages, parse the meta, and keep the node as a listing exactly when the
parsed title is nonempty (a truthy `meta.title`). -/
def listingOfNode (node : MdxNode) : Option MdxListing :=
  if node.meta = none then none
  else if !(ALLOW_LANGS.contains node.lang) then none
  else
    let meta := parseMdAstNodeMeta node
    if meta.title ≠ "" then
      some ⟨node.lang, meta.filename, meta.title, meta.addCargoDep, meta.genImage, node.value⟩
    else none

/-- All listings extracted from one document, in node order. -/
def extractListings (doc : MdxDoc) : List MdxListing :=
  doc.nodes.filterMap listingOfNode

/-!
The document enumerator `getSortedMdxFilenames` of `util.mjs` sorts the
globbed paths with `a.localeCompare(b, undefined, {numeric: true,
sensitivity: "base"})` — natural numeric comparison (maximal digit runs
compared by value, ties continued after the runs) with character
comparison elsewhere.  The paths are ASCII, where base-sensitivity
collation agrees with code-point order. -/

/-- Numeric value of a digit run (the accumulating decimal fold). -/
def numVal (cs : List Char) : Nat :=
  cs.foldl (fun n c => n * 10 + (c.toNat - '0'.toNat)) 0

/-- Natural ("numeric") string comparison: when both sides are at a digit,
compare the maximal digit runs by numeric value and continue after them on
a tie; otherwise compare the characters by code point and continue on a
tie; a proper prefix sorts first. -/
def natCmp : List Char → List Char → Ordering
  | [], [] => .eq
  | [], _ :: _ => .lt
  | _ :: _, [] => .gt
  | x :: xs, y :: ys =>
    if x.isDigit && y.isDigit then
      match compare (numVal ((x :: xs).takeWhile Char.isDigit))
          (numVal ((y :: ys).takeWhile Char.isDigit)) with
      | .eq => natCmp ((x :: xs).dropWhile Char.isDigit)
          ((y :: ys).dropWhile Char.isDigit)
      | o => o
    else
      match compare x.toNat y.toNat with
      | .eq => natCmp xs ys
      | o => o
termination_by a b => a.length + b.length
decreasing_by
  · simp only [List.dropWhile_cons]
    have hx : (List.dropWhile Char.isDigit xs).length ≤ xs.length := by
      induction xs with
      | nil => simp
      | cons z zs ih =>
        by_cases hz : Char.isDigit z
        · simp only [List.dropWhile_cons, hz, if_true]
          exact Nat.le_trans ih (Nat.le_succ _)
        · simp [List.dropWhile_cons, hz]
    have hy : (List.dropWhile Char.isDigit ys).length ≤ ys.length := by
      induction ys with
      | nil => simp
      | cons z zs ih =>
        by_cases hz : Char.isDigit z
        · simp only [List.dropWhile_cons, hz, if_true]
          exact Nat.le_trans ih (Nat.le_succ _)
        · simp [List.dropWhile_cons, hz]
    rename_i hdig
    have hx' : Char.isDigit x = true := by
      rcases Bool.and_eq_true .. |>.mp hdig with ⟨h1, _⟩; exact h1
    have hy' : Char.isDigit y = true := by
      rcases Bool.and_eq_true .. |>.mp hdig with ⟨_, h2⟩; exact h2
    simp only [hx', hy', if_true, List.length_cons]
    have := Nat.add_le_add hx hy
    omega
  · simp only [List.length_cons]
    omega

/-- The sort comparator of `getSortedMdxFilenames` as a boolean `le`. -/
def natLe (a b : String) : Bool :=
  !(natCmp a.data b.data == Ordering.gt)

/-- The sort order on documents induced by the comparator. -/
def docLe (a b : MdxDoc) : Prop :=
  natLe a.filename b.filename = true

instance : DecidableRel docLe := fun a b => by
  unfold docLe; infer_instance

/-- `getSortedMdxFilenames` lifted to documents: the documents in
natural-sorted path order (the import loop then reads each file in this
order; `Array.prototype.sort` with a consistent comparator produces a
sorted permutation, modelled by insertion sort). -/
def getSortedMdxDocs (docs : List MdxDoc) : List MdxDoc :=
  docs.insertionSort docLe

/-- `getMdxListingsByLang()[lang]`: walk the documents in sorted order,
extract the listings of each, and group by language (grouping preserves
the flattened order, so the per-language list is the filter of it). -/
def getMdxListingsByLang (docs : List MdxDoc) (lang : String) : List MdxListing :=
  ((getSortedMdxDocs docs).flatMap extractListings).filter (fun l => l.lang == lang)

/-!
The commit history reader `getGitCommits` of `import-code.mjs`. -/

/-- One entry of the repository's log together with the texts the reader
fetches for it: the lines of `git show <hash> --unified=0 --patience` and
the full file contents `git show <hash>:<path>` by path. -/
structure RawLogEntry where
  message : String
  hash : String
  showLines : List String
  files : List (String × String)
deriving DecidableEq, Repr

/-- The error reports (`console.log` calls) of the pipeline. -/
inductive PipelineError where
  | mdxMissing (title : String)
  | gitMissing (title : String)
  | inconsistentFilename (title : String) (gitFile : Option String) (mdxFile : String)
  | multipleFiles (message : String) (hash : String) (file1 : String) (file2 : String)
deriving DecidableEq, Repr

/-- The commit record assembled by `getGitCommits`. -/
structure GitCommit where
  message : String
  hash : String
  filename : Option String
  diffRanges : List DiffRange
  code : String
deriving DecidableEq, Repr

/-- The anchored regex `^diff --git a\/\S+ b\/(\S+)` on one line of the
`git show` output: literal prefix, a maximal nonempty non-whitespace run,
the literal `" b/"` (no backtracking below the maximal run, since the
next mandatory character is a space), then the captured maximal nonempty
non-whitespace run. -/
def parseDiffGitLine (line : String) : Option String :=
  let cs := line.data
  let pre := "diff --git a/".data
  if pre.isPrefixOf cs then
    let r := cs.drop pre.length
    let w := r.takeWhile (fun c => !c.isWhitespace)
    if w.isEmpty then none
    else
      let r2 := r.drop w.length
      if " b/".data.isPrefixOf r2 then
        let w2 := (r2.drop 3).takeWhile (fun c => !c.isWhitespace)
        if w2.isEmpty then none else some ⟨w2⟩
      else none
  else none

/-- The state of the per-commit line scan of `getGitCommits`: the
`commit.filename` found so far, the accumulated `diffRanges`, and the
multi-file integrity errors reported so far. -/
structure ShowScan where
  filename : Option String
  diffRanges : List DiffRange
  errors : List PipelineError
deriving DecidableEq, Repr

/-- One iteration of the `for (let line of lines)` loop of
`getGitCommits`: a `diff --git` header sets the filename, or — when one
was already found — reports the more-than-one-file error (the
`process.exit()` beneath that report is commented out in the source) and
keeps the first file; independently, a hunk header appends a diff range. -/
def scanShowLine (message hash : String) (st : ShowScan) (line : String) : ShowScan :=
  let st :=
    match parseDiffGitLine line with
    | some f =>
      match st.filename with
      | some f1 => { st with errors := st.errors ++ [.multipleFiles message hash f1 f] }
      | none => { st with filename := some f }
    | none => st
  match parseDiffRangeOfLine line with
  | some r => { st with diffRanges := st.diffRanges ++ [r] }
  | none => st

/-- The whole line scan of one commit's `git show` output. -/
def scanShowLines (message hash : String) (lines : List String) : ShowScan :=
  lines.foldl (scanShowLine message hash) ⟨none, [], []⟩

/-- `git show <hash>:<path>` : look up the fetched file content for the
scanned filename.  (A commit with no `diff --git` header would make the
JS crash on `show(hash + ":" + null)`; listing commits always have one.) -/
def lookupFileContent (files : List (String × String)) : Option String → String
  | some path => (files.lookup path).getD ""
  | none => ""

/-- `getGitCommits(gitRepoPath)`: reverse the log to oldest-first, keep
entries whose message matches `^Listing: (.*)` (the captured title
becomes `commit.message`), scan the `git show --unified=0` lines for the
single changed file and the diff ranges, fetch the file content and trim
one trailing newline.  Returns the parsed commits together with the
integrity errors the scan reported. -/
def getGitCommits (logNewestFirst : List RawLogEntry) :
    List GitCommit × List PipelineError :=
  logNewestFirst.reverse.foldl
    (fun acc log =>
      if "Listing: ".data.isPrefixOf log.message.data then
        let title : String := ⟨log.message.data.drop 9⟩
        let scan := scanShowLines title log.hash log.showLines
        let code := trimLastNewline (lookupFileContent log.files scan.filename)
        (acc.1 ++ [⟨title, log.hash, scan.filename, scan.diffRanges, code⟩],
          acc.2 ++ scan.errors)
      else acc)
    ([], [])

/-!
The importer `importCodeFromGitToMdx` of `import-code.mjs`. -/

/-- JS object insert `obj[k] = v`: replace the value in place when the key
exists, otherwise append the pair. -/
def mapUpsert {β : Type} (m : List (String × β)) (k : String) (v : β) :
    List (String × β) :=
  if m.any (fun p => p.1 == k) then
    m.map (fun p => if p.1 == k then (p.1, v) else p)
  else m ++ [(k, v)]

/-- `titleToGitCommit` / `titleToMdxListing`: fold the records into a JS
object keyed by the given function (insertion order, last value wins). -/
def buildMap {β : Type} (key : β → String) (xs : List β) : List (String × β) :=
  xs.foldl (fun m x => mapUpsert m (key x) x) []

/-- `k in obj`. -/
def mapHasKey {β : Type} (m : List (String × β)) (k : String) : Bool :=
  m.any (fun p => p.1 == k)

/-- The three error-checking loops of `importCodeFromGitToMdx`, in source
order: titles in git but not in mdx, titles in mdx but not in git, then
titles in both whose git filename differs from `"src/" +
mdxListing.filename` (a null git filename also differs). -/
def checkErrors (gitMap : List (String × GitCommit))
    (mdxMap : List (String × MdxListing)) : List PipelineError :=
  (gitMap.map Prod.fst).filterMap
      (fun t => if mapHasKey mdxMap t then none else some (.mdxMissing t)) ++
    (mdxMap.map Prod.fst).filterMap
      (fun t => if mapHasKey gitMap t then none else some (.gitMissing t)) ++
    gitMap.filterMap (fun p =>
      match mdxMap.lookup p.1 with
      | some l =>
        if p.2.filename ≠ some (exportFilePath l.filename) then
          some (.inconsistentFilename p.1 p.2.filename l.filename)
        else none
      | none => none)

/-- The `MODIFY_HIGHLIGHT_META` constant of `importCodeFromGitToMdx`. -/
def MODIFY_HIGHLIGHT_META : Bool := true

/-- The `visit(mdast, "code", ...)` callback of the import rewrite: for a
node whose parsed meta title is a key of `titleToGitCommit` and whose
language matches, replace the node's code with the commit's code (a no-op
when equal) and rewrite the highlight annotation in the meta string from
the commit's diff ranges.  (A matched node has a nonempty title and hence
a present meta string; `getD` totalizes the model.) -/
def rewriteNode (lang : String) (gitMap : List (String × GitCommit))
    (node : MdxNode) : MdxNode :=
  let meta := parseMdAstNodeMeta node
  if mapHasKey gitMap meta.title && (meta.lang == lang) then
    match gitMap.lookup meta.title with
    | some commit =>
      let node := { node with value := commit.code }
      if MODIFY_HIGHLIGHT_META then
        let lines := splitLines commit.code
        let hiStr := buildHiStr commit.diffRanges lines
        { node with meta := some (updateHiStrInMdxNodeMeta hiStr (node.meta.getD "")) }
      else node
    | none => node
  else node

/-- One document rewritten by the import's write loop. -/
def rewriteDoc (lang : String) (gitMap : List (String × GitCommit))
    (doc : MdxDoc) : MdxDoc :=
  { doc with nodes := doc.nodes.map (rewriteNode lang gitMap) }

/-- What happened for one import spec. -/
inductive SpecOutcome where
  | skipped (spec : String)
  | aborted (lang : String) (errors : List PipelineError)
  | imported (lang : String) (written : List MdxDoc)
deriving DecidableEq, Repr

/-- The environment of one invocation of `importCodeFromGitToMdx`: the
documents on disk at invocation and the git repositories by path. -/
structure ImportEnv where
  docs : List MdxDoc
  repos : List (String × List RawLogEntry)
deriving DecidableEq, Repr

/-- The result of a run: the outcome of each processed spec and the
documents on disk afterwards. -/
structure RunResult where
  outcomes : List SpecOutcome
  finalDocs : List MdxDoc
deriving DecidableEq, Repr

/-- The unanchored regex `([^:]+):([^:]+)` on an import spec: the first
adjacent pair of nonempty colon-free segments. -/
def firstAdjacentPair : List (List Char) → Option (String × String)
  | s1 :: s2 :: rest =>
    if !s1.isEmpty && !s2.isEmpty then some (⟨s1⟩, ⟨s2⟩)
    else firstAdjacentPair (s2 :: rest)
  | _ => none

/-- `importSpec.match(/([^:]+):([^:]+)/)` : language and repository path. -/
def parseImportSpec (spec : String) : Option (String × String) :=
  firstAdjacentPair (splitOnCharAux ':' [] spec.data)

/-- The body of the per-language loop of `importCodeFromGitToMdx` for one
language: read the repository's commits (the reader's integrity reports
are printed but play no further role), build the two title maps, run the
cross-reference checks; on any error abort without writing, otherwise
rewrite and write every document (the write loop re-enumerates the sorted
files).  Returns the outcome and the documents on disk afterwards. -/
def importOneLang (lang : String) (langListings : List MdxListing)
    (gitCommits : List GitCommit) (docs : List MdxDoc) :
    SpecOutcome × List MdxDoc :=
  let gitMap := buildMap (fun c => c.message) gitCommits
  let mdxMap := buildMap (fun l => l.title) langListings
  let errs := checkErrors gitMap mdxMap
  if errs.isEmpty then
    let written := (getSortedMdxDocs docs).map (rewriteDoc lang gitMap)
    (.imported lang written, written)
  else
    (.aborted lang errs, docs)

/-- The spec loop of `importCodeFromGitToMdx`.  `origDocs` are the
documents at invocation, from which `mdxListingsByLang` was computed once;
`docs` are the current on-disk documents.  An aborting language executes
`return`, ending the whole run. -/
def runImport (env : ImportEnv) : List String → List MdxDoc →
    List SpecOutcome → RunResult
  | [], docs, acc => ⟨acc, docs⟩
  | spec :: rest, docs, acc =>
    match parseImportSpec spec with
    | none => runImport env rest docs (acc ++ [.skipped spec])
    | some lp =>
      let langListings := getMdxListingsByLang env.docs lp.1
      let rawLog := (env.repos.lookup lp.2).getD []
      let r := importOneLang lp.1 langListings (getGitCommits rawLog).1 docs
      match r.1 with
      | .aborted l es => ⟨acc ++ [.aborted l es], docs⟩
      | o => runImport env rest r.2 (acc ++ [o])

/-- `importCodeFromGitToMdx(importSpecs)`. -/
def importCodeFromGitToMdx (env : ImportEnv) (importSpecs : List String) :
    RunResult :=
  runImport env importSpecs env.docs []

/-- The `titleToGitCommit` map a run builds for a repository path. -/
def langGitMap (env : ImportEnv) (path : String) : List (String × GitCommit) :=
  buildMap (fun c => c.message) (getGitCommits ((env.repos.lookup path).getD [])).1

/-- The `titleToMdxListing` map a run builds for a language. -/
def langMdxMap (env : ImportEnv) (lang : String) : List (String × MdxListing) :=
  buildMap (fun l => l.title) (getMdxListingsByLang env.docs lang)

/-- The cross-reference errors a run finds for one import spec. -/
def langCheckErrors (env : ImportEnv) (lang path : String) : List PipelineError :=
  checkErrors (langGitMap env path) (langMdxMap env lang)

/-!
Concrete data used to evaluate the pipeline at specific inputs. -/

/-- A document with a single rust listing titled `T`. -/
def exDoc : MdxDoc :=
  ⟨"pages/2-a.mdx", [⟨"rust", some "filename=\"main.rs | T\" {1}", "old code"⟩]⟩

/-- A listing commit whose diff touches two files. -/
def exTwoFileLog : RawLogEntry :=
  ⟨"Listing: T", "h1",
    ["diff --git a/src/main.rs b/src/main.rs",
      "diff --git a/src/extra.rs b/src/extra.rs",
      "@@ -0,0 +1,2 @@"],
    [("src/main.rs", "fn main() {}\nlet x = 1;\n")]⟩

/-- An invocation environment pairing `exDoc` with the two-file commit. -/
def exEnvMultiFile : ImportEnv := ⟨[exDoc], [("repo", [exTwoFileLog])]⟩

/-- A document with two rust listings sharing the title `T` and the
destination filename `main.rs`. -/
def exDupDoc : MdxDoc :=
  ⟨"pages/2-a.mdx",
    [⟨"rust", some "filename=\"main.rs | T\" {9}", "v1"⟩,
      ⟨"rust", some "filename=\"main.rs | T\" {9}", "v2"⟩]⟩

/-- A single listing commit for title `T` on `src/main.rs`. -/
def exDupLog : RawLogEntry :=
  ⟨"Listing: T", "h1",
    ["diff --git a/src/main.rs b/src/main.rs", "@@ -0,0 +1,1 @@"],
    [("src/main.rs", "code\n")]⟩

/-- An invocation environment with the colliding listings. -/
def exEnvDup : ImportEnv := ⟨[exDupDoc], [("repo", [exDupLog])]⟩

/-- A document holding one rust and one cpp listing. -/
def exDocTwoLangs : MdxDoc :=
  ⟨"pages/2-a.mdx",
    [⟨"rust", some "filename=\"main.rs | T\" {1}", "v1"⟩,
      ⟨"cpp", some "filename=\"main.cc | U\" {1}", "v2"⟩]⟩

/-- A rust repository whose only listing commit has the wrong title. -/
def exLogWrongTitle : RawLogEntry :=
  ⟨"Listing: OTHER", "h1",
    ["diff --git a/src/main.rs b/src/main.rs", "@@ -0,0 +1,1 @@"],
    [("src/main.rs", "x\n")]⟩

/-- A cpp repository consistent with `exDocTwoLangs`. -/
def exLogCppOk : RawLogEntry :=
  ⟨"Listing: U", "h2",
    ["diff --git a/src/main.cc b/src/main.cc", "@@ -0,0 +1,1 @@"],
    [("src/main.cc", "y\n")]⟩

/-- An environment where the rust import spec errors while the cpp one is
perfectly consistent. -/
def exEnvTwoLangs : ImportEnv :=
  ⟨[exDocTwoLangs], [("r1", [exLogWrongTitle]), ("r2", [exLogCppOk])]⟩

/-- A concrete listing for witness runs. -/
def exListing : MdxListing := ⟨"rust", "main.rs", "T", "", false, "old code"⟩

/-- A parsed commit consistent with `exListing`. -/
def exCommitOk : GitCommit := ⟨"T", "h", some "src/main.rs", [], "code"⟩

/-- A parsed commit whose title matches nothing in the documents. -/
def exCommitWrongTitle : GitCommit := ⟨"OTHER", "h", some "src/main.rs", [], "code"⟩

end RayTracingRoad

namespace RayTracingRoad

/-!
## Helper lemmas: the highlight-string loop vs. its declarative form -/

theorem renderPiece_eq_amended (lines : List String) (r : DiffRange) :
    renderPiece lines r = renderPieceAmended lines r := by
  unfold renderPiece renderPieceAmended PREFER_NEWLINE_UPFRONT
  by_cases h1 : r.count2 = 1
  · simp [h1]
  · by_cases h2 : lineGet lines (r.start2 + r.count2 - 1) = some ""
    · by_cases h3 : r.start2 = 1
      · simp [h1, h2, h3]
      · by_cases h4 : lineGet lines (r.start2 - 1) = some ""
        · simp [h1, h2, h3, h4]
        · simp [h1, h2, h3, h4]
    · simp [h1, h2]

theorem buildHiStrCore_cons (lines : List String) (r : DiffRange)
    (rest : List DiffRange) (acc : String × Bool) :
    buildHiStrCore lines (r :: rest) acc =
      buildHiStrCore lines rest (hiStep lines acc r) := rfl

theorem hiStep_skip (lines : List String) (acc : String × Bool)
    (r : DiffRange) (hc : r.count2 = 0) : hiStep lines acc r = acc := by
  simp [hiStep, hc]

theorem hiStep_true (lines : List String) (s : String) (r : DiffRange)
    (hc : r.count2 ≠ 0) :
    hiStep lines (s, true) r = (s ++ renderPiece lines r, false) := by
  simp [hiStep, hc]

theorem hiStep_false (lines : List String) (s : String) (r : DiffRange)
    (hc : r.count2 ≠ 0) :
    hiStep lines (s, false) r = (s ++ "," ++ renderPiece lines r, false) := by
  simp [hiStep, hc]

theorem filter_cons_skip (r : DiffRange) (rest : List DiffRange)
    (hc : r.count2 = 0) :
    (r :: rest).filter (fun r => r.count2 ≠ 0) =
      rest.filter (fun r => r.count2 ≠ 0) := by
  simp [List.filter, hc]

theorem filter_cons_keep (r : DiffRange) (rest : List DiffRange)
    (hc : r.count2 ≠ 0) :
    (r :: rest).filter (fun r => r.count2 ≠ 0) =
      r :: rest.filter (fun r => r.count2 ≠ 0) := by
  simp [List.filter, hc]

theorem buildHiStrCore_false (lines : List String) (ranges : List DiffRange)
    (s : String) :
    buildHiStrCore lines ranges (s, false) =
      (s ++ commaJoinAll
        ((ranges.filter (fun r => r.count2 ≠ 0)).map (renderPiece lines)), false) := by
  induction ranges generalizing s with
  | nil => simp [buildHiStrCore, commaJoinAll]
  | cons r rest ih =>
    rw [buildHiStrCore_cons]
    by_cases hc : r.count2 = 0
    · rw [hiStep_skip _ _ _ hc, filter_cons_skip _ _ hc, ih]
    · rw [hiStep_false _ _ _ hc, filter_cons_keep _ _ hc, ih]
      simp [commaJoinAll, String.append_assoc]

theorem buildHiStrCore_true (lines : List String) (ranges : List DiffRange)
    (s : String) :
    (buildHiStrCore lines ranges (s, true)).1 =
      s ++ joinCommas
        ((ranges.filter (fun r => r.count2 ≠ 0)).map (renderPiece lines)) := by
  induction ranges generalizing s with
  | nil => simp [buildHiStrCore, joinCommas]
  | cons r rest ih =>
    rw [buildHiStrCore_cons]
    by_cases hc : r.count2 = 0
    · rw [hiStep_skip _ _ _ hc, filter_cons_skip _ _ hc, ih]
    · rw [hiStep_true _ _ _ hc, filter_cons_keep _ _ hc, buildHiStrCore_false]
      simp [joinCommas, String.append_assoc]

/-!
## C1 -/

/-- C1 (counterexample): the claim's shift condition reads the line
immediately *after* the computed end.  On the file with lines `"a"`,
`""`, `"x"`, `"y"`, `""` and the hunk `+3,2`, the claim predicts the
shifted range `{2-3}` (line 5, after the end, is blank; line 2, before
the start, is blank), but the code renders `{3-4}`: its condition reads
the line *at* the computed end (line 4, `"y"`, not blank). -/
theorem c1_counterexample :
    buildHiStr [⟨3, 0, 3, 2⟩] ["a", "", "x", "y", ""] = "{3-4}" ∧
    buildHiStrClaimed [⟨3, 0, 3, 2⟩] ["a", "", "x", "y", ""] = "{2-3}" ∧
    buildHiStr [⟨3, 0, 3, 2⟩] ["a", "", "x", "y", ""] ≠
      buildHiStrClaimed [⟨3, 0, 3, 2⟩] ["a", "", "x", "y", ""] :=
  ⟨by decide, by decide, by decide⟩

/-- C1 (amended): the importer derives the highlight annotation from the
diff hunks exactly as described — hunks with `newCount == 0` skipped, a
single-line hunk as the bare line number, a longer hunk as
`start-(start+count-1)` shifted back by one when the line *at* the
computed end is blank, the computed start is not line 1, and the line
immediately before the computed start is blank — all pieces joined with
commas and wrapped in braces. -/
theorem c1_highlight_derivation (ranges : List DiffRange) (lines : List String) :
    buildHiStr ranges lines = buildHiStrAmended ranges lines := by
  unfold buildHiStr buildHiStrAmended
  rw [buildHiStrCore_true]
  have : (ranges.filter (fun r => r.count2 ≠ 0)).map (renderPiece lines)
      = (ranges.filter (fun r => r.count2 ≠ 0)).map (renderPieceAmended lines) :=
    List.map_congr_left (fun r _ => renderPiece_eq_amended lines r)
  rw [this, String.append_assoc]

/-!
## C5 -/

/-- C5: the exporter writes the listing's code followed by one newline
(so the file always ends in a newline, and in exactly one when the code
itself does not end with one), and the commit reader strips exactly one
trailing newline, so the reader recovers the exported code
byte-identically. -/
theorem c5_trailing_newline_roundtrip (code : String) :
    trimLastNewline (exportFileContent code) = code ∧
    (exportFileContent code).data.getLast? = some '\n' ∧
    (code.data.getLast? ≠ some '\n' →
      (exportFileContent code).data.dropLast.getLast? ≠ some '\n') := by
  have hd : (exportFileContent code).data = code.data ++ ['\n'] := by
    show (code ++ "\n").data = _
    rw [String.data_append]
  refine ⟨?_, ?_, ?_⟩
  · unfold trimLastNewline
    rw [hd, List.getLast?_concat, List.dropLast_concat]
    simp
  · rw [hd, List.getLast?_concat]
  · intro h
    rw [hd, List.dropLast_concat]
    exact h

/-- C5 witness. -/
theorem c5_trailing_newline_roundtrip_witness :
    trimLastNewline (exportFileContent "fn main() {}") = "fn main() {}" ∧
    (exportFileContent "fn main() {}").data.dropLast.getLast? ≠ some '\n' := by
  have h := c5_trailing_newline_roundtrip "fn main() {}"
  exact ⟨h.1, h.2.2 (by decide)⟩

/-!
## C6 -/

/-- C6: concrete hunk parsing and rendering — `@@ -10,0 +11,3 @@` parses
to `(10,0,11,3)` and its piece renders as `11-13`; `@@ -5,1 +5,1 @@`
renders as `5`; the hunks `+2,1` and `+9,2` render jointly as
`{2,9-10}`; a header with omitted counts, `@@ -5 +7 @@`, defaults both
counts to 1.  The hypotheses pin the probed lines of the file as
non-blank, so the blank-line shift does not fire. -/
theorem c6_concrete_highlight_rendering (lines : List String)
    (h13 : lineGet lines 13 ≠ some "") (h10 : lineGet lines 10 ≠ some "") :
    parseDiffRangeOfLine "@@ -10,0 +11,3 @@" = some ⟨10, 0, 11, 3⟩ ∧
    renderPiece lines ⟨10, 0, 11, 3⟩ = "11-13" ∧
    parseDiffRangeOfLine "@@ -5,1 +5,1 @@" = some ⟨5, 1, 5, 1⟩ ∧
    renderPiece lines ⟨5, 1, 5, 1⟩ = "5" ∧
    parseDiffRangeOfLine "@@ -1,0 +2,1 @@" = some ⟨1, 0, 2, 1⟩ ∧
    parseDiffRangeOfLine "@@ -8,0 +9,2 @@" = some ⟨8, 0, 9, 2⟩ ∧
    buildHiStr [⟨1, 0, 2, 1⟩, ⟨8, 0, 9, 2⟩] lines = "{2,9-10}" ∧
    parseDiffRangeOfLine "@@ -5 +7 @@" = some ⟨5, 1, 7, 1⟩ := by
  have h13' : (lineGet lines 13 == some "") = false := by simpa using h13
  have h10' : (lineGet lines 10 == some "") = false := by simpa using h10
  refine ⟨by decide, ?_, by decide, by simp [renderPiece]; decide, by decide,
    by decide, ?_, by decide⟩
  · simp [renderPiece, PREFER_NEWLINE_UPFRONT, h13']
    decide
  · rw [buildHiStr, buildHiStrCore_cons, hiStep_true _ _ _ (by decide),
      buildHiStrCore_cons, hiStep_false _ _ _ (by decide)]
    simp only [buildHiStrCore, List.foldl_nil]
    simp [renderPiece, PREFER_NEWLINE_UPFRONT, h10']
    decide

/-- C6 witness: a 13-line file with no blank line. -/
theorem c6_concrete_highlight_rendering_witness :
    renderPiece (List.replicate 13 "x") ⟨10, 0, 11, 3⟩ = "11-13" ∧
    buildHiStr [⟨1, 0, 2, 1⟩, ⟨8, 0, 9, 2⟩] (List.replicate 13 "x") = "{2,9-10}" := by
  have h := c6_concrete_highlight_rendering (List.replicate 13 "x")
    (by decide) (by decide)
  exact ⟨h.2.1, h.2.2.2.2.2.2.1⟩

end RayTracingRoad

namespace RayTracingRoad

/-!
## C7 -/

/-- C7 (counterexample): an explicit brace-delimited range in the meta
string is not preserved — the import's meta rewrite substitutes the
computed range for it.  Here the annotation carries the explicit range
`{1,5-9}` and the computed string is `{2}`; `updateHiStrInMdxNodeMeta`
returns the annotation with `{2}` in place of `{1,5-9}`. -/
theorem c7_counterexample :
    updateHiStrInMdxNodeMeta "{2}" "filename=\"a.rs | T\" {1,5-9}" =
      "filename=\"a.rs | T\" {2}" ∧
    updateHiStrInMdxNodeMeta "{2}" "filename=\"a.rs | T\" {1,5-9}" ≠
      "filename=\"a.rs | T\" {1,5-9}" :=
  ⟨by decide, by decide⟩

/-- C7 (amended): the brace-delimited token of the annotation marks the
span the import *overwrites*: the computed range replaces exactly the
span from the first opening brace to the last closing brace, leaving the
rest of the annotation untouched (and when no such span exists the
computed range is appended). -/
theorem c7_highlight_meta_rewrite (before inner after hiStr : String)
    (hb : '{' ∉ before.data) (ha : '}' ∉ after.data) :
    updateHiStrInMdxNodeMeta hiStr (before ++ "\x7b" ++ inner ++ "\x7d" ++ after) =
      before ++ hiStr ++ after := by
  have hbrace : ("\x7b" : String).data = ['{'] := rfl
  have hrbrace : ("\x7d" : String).data = ['}'] := rfl
  have hd : (before ++ "\x7b" ++ inner ++ "\x7d" ++ after).data
      = before.data ++ ('{' :: (inner.data ++ ('}' :: after.data))) := by
    simp only [String.data_append, hbrace, hrbrace, List.append_assoc,
      List.singleton_append, List.cons_append, List.nil_append]
  have hb' : ∀ c ∈ before.data, (fun c => decide (c ≠ '{')) c = true := by
    intro c hc
    simp only [ne_eq, decide_eq_true_eq]
    exact fun h => hb (h ▸ hc)
  have ha' : ∀ c ∈ after.data.reverse, (fun c => decide (c ≠ '}')) c = true := by
    intro c hc
    simp only [ne_eq, decide_eq_true_eq]
    exact fun h => ha (h ▸ List.mem_reverse.mp hc)
  have hspan : hasBraceSpan (before ++ "\x7b" ++ inner ++ "\x7d" ++ after).data = true := by
    unfold hasBraceSpan
    rw [hd, List.dropWhile_append_of_pos hb',
      List.dropWhile_cons_of_neg (by simp)]
    simp [List.contains_eq_any_beq, List.any_eq_true]
  have hrev : (before.data ++ ('{' :: (inner.data ++ ('}' :: after.data)))).reverse
      = after.data.reverse ++ ('}' :: (inner.data.reverse ++ ('{' :: before.data.reverse))) := by
    simp [List.reverse_append, List.reverse_cons, List.append_assoc, List.cons_append]
  have hrepl : replaceBraceSpan (before ++ "\x7b" ++ inner ++ "\x7d" ++ after).data hiStr.data
      = before.data ++ hiStr.data ++ after.data := by
    unfold replaceBraceSpan
    rw [hd, List.takeWhile_append_of_pos hb',
      List.takeWhile_cons_of_neg (by simp)]
    rw [show (before.data ++ ('{' :: (inner.data ++ ('}' :: after.data)))).reverse
        = after.data.reverse ++ ('}' :: (inner.data.reverse ++ ('{' :: before.data.reverse)))
      from hrev]
    rw [List.takeWhile_append_of_pos ha', List.takeWhile_cons_of_neg (by simp)]
    simp
  unfold updateHiStrInMdxNodeMeta
  rw [hspan]
  simp only [if_true]
  rw [hrepl]
  apply String.ext
  simp [String.data_append]

/-- C7 witness. -/
theorem c7_highlight_meta_rewrite_witness :
    updateHiStrInMdxNodeMeta "{2}" ("filename=\"a.rs | T\" " ++ "\x7b" ++ "1,5-9" ++ "\x7d" ++ "") =
      "filename=\"a.rs | T\" " ++ "{2}" ++ "" :=
  c7_highlight_meta_rewrite "filename=\"a.rs | T\" " "1,5-9" "" "{2}"
    (by decide) (by decide)

/-!
## C3 helper: characterization of the file-header scan -/

theorem scanShowLines_foldl (m h : String) (lines : List String) :
    ∀ st : ShowScan,
      (lines.foldl (scanShowLine m h) st).filename =
        (match st.filename with
         | some f => some f
         | none => (lines.filterMap parseDiffGitLine).head?) ∧
      (lines.foldl (scanShowLine m h) st).errors.length =
        st.errors.length +
          (match st.filename with
           | some _ => (lines.filterMap parseDiffGitLine).length
           | none => (lines.filterMap parseDiffGitLine).length - 1) := by
  induction lines with
  | nil => intro st; cases hf : st.filename <;> simp [hf]
  | cons l rest ih =>
    intro st
    rcases hp : parseDiffGitLine l with _ | f
    · have hstep : ∀ st' : ShowScan, (scanShowLine m h st' l).filename = st'.filename
          ∧ (scanShowLine m h st' l).errors = st'.errors := by
        intro st'
        unfold scanShowLine
        rw [hp]
        cases parseDiffRangeOfLine l <;> simp
      rcases ih (scanShowLine m h st l) with ⟨ih1, ih2⟩
      simp only [List.foldl_cons, List.filterMap_cons, hp] at *
      rw [ih1, ih2, (hstep st).1, (hstep st).2]
      exact ⟨rfl, rfl⟩
    · rcases hf : st.filename with _ | f1
      · have hstep : (scanShowLine m h st l).filename = some f
            ∧ (scanShowLine m h st l).errors = st.errors := by
          unfold scanShowLine
          rw [hp, hf]
          cases parseDiffRangeOfLine l <;> simp
        rcases ih (scanShowLine m h st l) with ⟨ih1, ih2⟩
        simp only [List.foldl_cons, List.filterMap_cons, hp] at *
        rw [ih1, ih2, hstep.1, hstep.2]
        refine ⟨rfl, ?_⟩
        simp
      · have hstep : (scanShowLine m h st l).filename = some f1
            ∧ (scanShowLine m h st l).errors = st.errors ++ [.multipleFiles m h f1 f] := by
          unfold scanShowLine
          rw [hp, hf]
          cases parseDiffRangeOfLine l <;> simp
        rcases ih (scanShowLine m h st l) with ⟨ih1, ih2⟩
        simp only [List.foldl_cons, List.filterMap_cons, hp] at *
        rw [ih1, ih2, hstep.1, hstep.2]
        refine ⟨rfl, ?_⟩
        simp
        omega

/-!
## C3 -/

/-- C3 (counterexample): a listing commit touching two files is reported
by the commit reader, but the error does not feed the importer's abort
flag: with the first file consistent with the document, the run
still imports and writes.  So the multi-file error does not
block the import from writing, contrary to the claim. -/
theorem c3_counterexample :
    (getGitCommits [exTwoFileLog]).2 =
      [.multipleFiles "T" "h1" "src/main.rs" "src/extra.rs"] ∧
    (importCodeFromGitToMdx exEnvMultiFile ["rust:repo"]).outcomes =
      [.imported "rust"
        [⟨"pages/2-a.mdx",
          [⟨"rust", some "filename=\"main.rs | T\" {1-2}", "fn main() {}\nlet x = 1;"⟩]⟩]] :=
  ⟨by decide, by decide⟩

/-- C3 (amended): for a listing commit whose diff header names more than
one file, the reader flags a data-integrity error and retains the first
file (it does not silently succeed, but the report is only printed:
the run aborts only when the cross-reference checks fail). -/
theorem c3_multi_file_report (message hash : String) (showLines : List String)
    (f1 f2 : String) (fs : List String)
    (hfiles : showLines.filterMap parseDiffGitLine = f1 :: f2 :: fs) :
    (scanShowLines message hash showLines).filename = some f1 ∧
    (scanShowLines message hash showLines).errors ≠ [] := by
  rcases scanShowLines_foldl message hash showLines ⟨none, [], []⟩ with ⟨h1, h2⟩
  unfold scanShowLines
  rw [hfiles] at h1 h2
  simp only at h1 h2
  constructor
  · exact h1
  · intro hnil
    rw [hnil] at h2
    simp at h2

/-- C3 witness. -/
theorem c3_multi_file_report_witness :
    (scanShowLines "T" "h1" exTwoFileLog.showLines).filename = some "src/main.rs" ∧
    (scanShowLines "T" "h1" exTwoFileLog.showLines).errors ≠ [] :=
  c3_multi_file_report "T" "h1" exTwoFileLog.showLines
    "src/main.rs" "src/extra.rs" [] (by decide)

end RayTracingRoad

namespace RayTracingRoad

/-!
## Helper lemmas: title maps and the cross-reference checks -/

theorem mapHasKey_iff {β : Type} (m : List (String × β)) (t : String) :
    mapHasKey m t = true ↔ t ∈ m.map Prod.fst := by
  unfold mapHasKey
  rw [List.any_eq_true]
  constructor
  · rintro ⟨p, hp, hb⟩
    exact List.mem_map.mpr ⟨p, hp, beq_iff_eq.mp hb⟩
  · intro h
    rcases List.mem_map.mp h with ⟨p, hp, he⟩
    exact ⟨p, hp, beq_iff_eq.mpr he⟩

theorem lookup_some_mem {β : Type} {m : List (String × β)} {t : String} {v : β}
    (h : m.lookup t = some v) : (t, v) ∈ m := by
  induction m with
  | nil => simp [List.lookup] at h
  | cons p rest ih =>
    rw [List.lookup] at h
    cases hbe : (t == p.1) with
    | true =>
      rw [hbe] at h
      simp only at h
      have hp1 : p.1 = t := (beq_iff_eq.mp hbe).symm
      have : p = (t, v) := by
        rcases p with ⟨a, b⟩
        simp only at hp1
        cases h
        rw [hp1]
      exact this ▸ List.mem_cons_self _ _
    | false =>
      rw [hbe] at h
      simp only at h
      exact List.mem_cons_of_mem _ (ih h)

theorem hasKey_lookup {β : Type} {m : List (String × β)} {t : String}
    (h : mapHasKey m t = true) : ∃ v, m.lookup t = some v := by
  induction m with
  | nil => simp [mapHasKey] at h
  | cons p rest ih =>
    cases hbe : (t == p.1) with
    | true => exact ⟨p.2, by rw [List.lookup, hbe]⟩
    | false =>
      have h' : mapHasKey rest t = true := by
        unfold mapHasKey at h ⊢
        simp only [List.any_cons] at h
        rcases Bool.or_eq_true .. |>.mp h with h1 | h2
        · have : p.1 = t := beq_iff_eq.mp h1
          rw [this] at hbe
          simp at hbe
        · exact h2
      rcases ih h' with ⟨v, hv⟩
      exact ⟨v, by rw [List.lookup, hbe]; exact hv⟩

theorem mdxMissing_mem_checkErrors {g : List (String × GitCommit)}
    {m : List (String × MdxListing)} {t : String}
    (hg : mapHasKey g t = true) (hm : mapHasKey m t = false) :
    PipelineError.mdxMissing t ∈ checkErrors g m := by
  unfold checkErrors
  refine List.mem_append.mpr (Or.inl (List.mem_append.mpr (Or.inl ?_)))
  exact List.mem_filterMap.mpr ⟨t, (mapHasKey_iff g t).mp hg, by rw [hm]; rfl⟩

theorem gitMissing_mem_checkErrors {g : List (String × GitCommit)}
    {m : List (String × MdxListing)} {t : String}
    (hm : mapHasKey m t = true) (hg : mapHasKey g t = false) :
    PipelineError.gitMissing t ∈ checkErrors g m := by
  unfold checkErrors
  refine List.mem_append.mpr (Or.inl (List.mem_append.mpr (Or.inr ?_)))
  exact List.mem_filterMap.mpr ⟨t, (mapHasKey_iff m t).mp hm, by rw [hg]; rfl⟩

theorem inconsistent_mem_checkErrors {g : List (String × GitCommit)}
    {m : List (String × MdxListing)} {p : String × GitCommit} {l : MdxListing}
    (hp : p ∈ g) (hl : m.lookup p.1 = some l)
    (hne : p.2.filename ≠ some (exportFilePath l.filename)) :
    PipelineError.inconsistentFilename p.1 p.2.filename l.filename ∈ checkErrors g m := by
  unfold checkErrors
  refine List.mem_append.mpr (Or.inr ?_)
  refine List.mem_filterMap.mpr ⟨p, hp, ?_⟩
  rw [hl]
  simp only [if_pos hne]

theorem checkErrors_eq_nil {g : List (String × GitCommit)}
    {m : List (String × MdxListing)}
    (hk : ∀ t, mapHasKey g t = mapHasKey m t)
    (hf : ∀ p ∈ g, ∀ l, m.lookup p.1 = some l →
      p.2.filename = some (exportFilePath l.filename)) :
    checkErrors g m = [] := by
  unfold checkErrors
  rw [List.append_eq_nil, List.append_eq_nil]
  refine ⟨⟨?_, ?_⟩, ?_⟩
  · rw [List.filterMap_eq_nil_iff]
    intro t ht
    have : mapHasKey m t = true := (hk t) ▸ (mapHasKey_iff g t).mpr ht
    rw [this]
    rfl
  · rw [List.filterMap_eq_nil_iff]
    intro t ht
    have : mapHasKey g t = true := (hk t).symm ▸ (mapHasKey_iff m t).mpr ht
    rw [this]
    rfl
  · rw [List.filterMap_eq_nil_iff]
    intro p hp
    rcases hl : m.lookup p.1 with _ | l
    · rfl
    · simp only
      rw [if_neg]
      intro hne
      exact hne (hf p hp l hl)

theorem importOneLang_abort (lang : String) (langListings : List MdxListing)
    (gitCommits : List GitCommit) (docs : List MdxDoc)
    (h : checkErrors (buildMap (fun c => c.message) gitCommits)
      (buildMap (fun l => l.title) langListings) ≠ []) :
    importOneLang lang langListings gitCommits docs =
      (.aborted lang (checkErrors (buildMap (fun c => c.message) gitCommits)
        (buildMap (fun l => l.title) langListings)), docs) := by
  unfold importOneLang
  rw [if_neg (by simpa [List.isEmpty_iff] using h)]

theorem importOneLang_ok (lang : String) (langListings : List MdxListing)
    (gitCommits : List GitCommit) (docs : List MdxDoc)
    (h : checkErrors (buildMap (fun c => c.message) gitCommits)
      (buildMap (fun l => l.title) langListings) = []) :
    importOneLang lang langListings gitCommits docs =
      (.imported lang ((getSortedMdxDocs docs).map
          (rewriteDoc lang (buildMap (fun c => c.message) gitCommits))),
        (getSortedMdxDocs docs).map
          (rewriteDoc lang (buildMap (fun c => c.message) gitCommits))) := by
  unfold importOneLang
  rw [if_pos (by simp [h])]

/-!
## C2 -/

/-- C2: the cross-reference gate of one language's import.  If some title
is in one title map but not the other, or some title present in both has
a git filename different from `"src/" + mdxListing.filename`, the import
aborts with the check's error list and the documents are untouched, and
each such discrepancy appears in that error list; if the key sets agree
and every filename matches, the import proceeds and rewrites every
document. -/
theorem c2_cross_reference_gate (lang : String) (langListings : List MdxListing)
    (gitCommits : List GitCommit) (docs : List MdxDoc) :
    (((∃ t, mapHasKey (buildMap (fun c => c.message) gitCommits) t ≠
          mapHasKey (buildMap (fun l => l.title) langListings) t) ∨
        (∃ p ∈ buildMap (fun c => c.message) gitCommits, ∃ l,
          (buildMap (fun l => l.title) langListings).lookup p.1 = some l ∧
            p.2.filename ≠ some (exportFilePath l.filename))) →
      importOneLang lang langListings gitCommits docs =
        (.aborted lang
          (checkErrors (buildMap (fun c => c.message) gitCommits)
            (buildMap (fun l => l.title) langListings)), docs) ∧
      (∀ t, mapHasKey (buildMap (fun c => c.message) gitCommits) t = true →
        mapHasKey (buildMap (fun l => l.title) langListings) t = false →
        PipelineError.mdxMissing t ∈
          checkErrors (buildMap (fun c => c.message) gitCommits)
            (buildMap (fun l => l.title) langListings)) ∧
      (∀ t, mapHasKey (buildMap (fun l => l.title) langListings) t = true →
        mapHasKey (buildMap (fun c => c.message) gitCommits) t = false →
        PipelineError.gitMissing t ∈
          checkErrors (buildMap (fun c => c.message) gitCommits)
            (buildMap (fun l => l.title) langListings)) ∧
      (∀ p ∈ buildMap (fun c => c.message) gitCommits, ∀ l,
        (buildMap (fun l => l.title) langListings).lookup p.1 = some l →
        p.2.filename ≠ some (exportFilePath l.filename) →
        PipelineError.inconsistentFilename p.1 p.2.filename l.filename ∈
          checkErrors (buildMap (fun c => c.message) gitCommits)
            (buildMap (fun l => l.title) langListings))) ∧
    ((∀ t, mapHasKey (buildMap (fun c => c.message) gitCommits) t =
        mapHasKey (buildMap (fun l => l.title) langListings) t) →
      (∀ p ∈ buildMap (fun c => c.message) gitCommits, ∀ l,
        (buildMap (fun l => l.title) langListings).lookup p.1 = some l →
        p.2.filename = some (exportFilePath l.filename)) →
      importOneLang lang langListings gitCommits docs =
        (.imported lang ((getSortedMdxDocs docs).map
            (rewriteDoc lang (buildMap (fun c => c.message) gitCommits))),
          (getSortedMdxDocs docs).map
            (rewriteDoc lang (buildMap (fun c => c.message) gitCommits)))) := by
  constructor
  · intro habort
    have hne : checkErrors (buildMap (fun c => c.message) gitCommits)
        (buildMap (fun l => l.title) langListings) ≠ [] := by
      rcases habort with ⟨t, ht⟩ | ⟨p, hp, l, hl, hnef⟩
      · rcases hgt : mapHasKey (buildMap (fun c => c.message) gitCommits) t with _ | _ <;>
          rcases hmt : mapHasKey (buildMap (fun l => l.title) langListings) t with _ | _
        · rw [hgt, hmt] at ht; exact absurd rfl ht
        · exact List.ne_nil_of_mem (gitMissing_mem_checkErrors hmt hgt)
        · exact List.ne_nil_of_mem (mdxMissing_mem_checkErrors hgt hmt)
        · rw [hgt, hmt] at ht; exact absurd rfl ht
      · exact List.ne_nil_of_mem (inconsistent_mem_checkErrors hp hl hnef)
    exact ⟨importOneLang_abort lang langListings gitCommits docs hne,
      fun t h1 h2 => mdxMissing_mem_checkErrors h1 h2,
      fun t h1 h2 => gitMissing_mem_checkErrors h1 h2,
      fun p hp l hl hnef => inconsistent_mem_checkErrors hp hl hnef⟩
  · intro hk hf
    exact importOneLang_ok lang langListings gitCommits docs (checkErrors_eq_nil hk hf)

/-- C2 witness: a mismatched title aborts without touching the documents;
the consistent pair imports. -/
theorem c2_cross_reference_gate_witness :
    importOneLang "rust" [exListing] [exCommitWrongTitle] [exDoc] =
      (.aborted "rust"
        (checkErrors (buildMap (fun c => c.message) [exCommitWrongTitle])
          (buildMap (fun l => l.title) [exListing])), [exDoc]) ∧
    importOneLang "rust" [exListing] [exCommitOk] [exDoc] =
      (.imported "rust" ((getSortedMdxDocs [exDoc]).map
          (rewriteDoc "rust" (buildMap (fun c => c.message) [exCommitOk]))),
        (getSortedMdxDocs [exDoc]).map
          (rewriteDoc "rust" (buildMap (fun c => c.message) [exCommitOk]))) := by
  constructor
  · exact (c2_cross_reference_gate "rust" [exListing] [exCommitWrongTitle] [exDoc]).1
      (Or.inl ⟨"OTHER", by decide⟩) |>.1
  · refine (c2_cross_reference_gate "rust" [exListing] [exCommitOk] [exDoc]).2 ?_ ?_
    · intro t
      rfl
    · intro p hp l hl
      have hp' : p = ("T", exCommitOk) := by
        have : buildMap (fun c => c.message) [exCommitOk] = [("T", exCommitOk)] := by decide
        rw [this] at hp
        simpa using hp
      subst hp'
      have : buildMap (fun l => l.title) [exListing] = [("T", exListing)] := by decide
      rw [this] at hl
      simp [List.lookup] at hl
      subst hl
      decide

end RayTracingRoad

namespace RayTracingRoad

/-!
## C4 -/

/-- C4 (counterexample): two listings of the same language share the
title `T` with the same destination filename, yet the run reports
nothing (the cross-reference check passes) and rewrites both colliding
code blocks with the single commit's code — the collision is silently
merged, not surfaced. -/
theorem c4_counterexample :
    (getMdxListingsByLang [exDupDoc] "rust").map (fun l => l.title) = ["T", "T"] ∧
    importCodeFromGitToMdx exEnvDup ["rust:repo"] =
      ⟨[.imported "rust"
          [⟨"pages/2-a.mdx",
            [⟨"rust", some "filename=\"main.rs | T\" {1}", "code"⟩,
              ⟨"rust", some "filename=\"main.rs | T\" {1}", "code"⟩]⟩]],
        [⟨"pages/2-a.mdx",
          [⟨"rust", some "filename=\"main.rs | T\" {1}", "code"⟩,
            ⟨"rust", some "filename=\"main.rs | T\" {1}", "code"⟩]⟩]⟩ :=
  ⟨by decide, by decide⟩

/-- C4 (amended): the importer's title maps are last-value-wins, so with
two listings sharing a title the cross-reference check sees only the
second: it passes — silently merging the collision — exactly when the
commit's file path matches the second listing's destination filename,
and surfaces an error only when that (single retained) filename
disagrees. -/
theorem c4_duplicate_title_check (l1 l2 : MdxListing) (c : GitCommit)
    (h12 : l1.title = l2.title) (hc : c.message = l2.title) :
    checkErrors (buildMap (fun c => c.message) [c])
        (buildMap (fun l => l.title) [l1, l2]) = []
      ↔ c.filename = some (exportFilePath l2.filename) := by
  have hg : buildMap (fun c => c.message) [c] = [(l2.title, c)] := by
    simp [buildMap, mapUpsert, hc]
  have hm : buildMap (fun l => l.title) [l1, l2] = [(l1.title, l2)] := by
    simp [buildMap, mapUpsert, mapHasKey, h12]
  rw [hg, hm, h12]
  unfold checkErrors
  simp [mapHasKey, List.lookup]

/-- C4 witness: two colliding listings with the matching commit pass the
check. -/
theorem c4_duplicate_title_check_witness :
    checkErrors
      (buildMap (fun c => c.message) [exCommitOk])
      (buildMap (fun l => l.title) [exListing, exListing]) = [] :=
  (c4_duplicate_title_check exListing exListing exCommitOk rfl rfl).mpr (by decide)

/-!
## C10 -/

/-- C10: when the first import spec's language fails the cross-reference
check, the whole invocation returns: the run's outcome list holds only
that language's abort and the documents are unchanged — every later spec
is neither checked nor written, whatever its repositories hold. -/
theorem c10_abort_scope (env : ImportEnv) (spec1 : String) (rest : List String)
    (lang1 path1 : String)
    (hspec : parseImportSpec spec1 = some (lang1, path1))
    (hne : langCheckErrors env lang1 path1 ≠ []) :
    importCodeFromGitToMdx env (spec1 :: rest) =
      ⟨[.aborted lang1 (langCheckErrors env lang1 path1)], env.docs⟩ := by
  unfold importCodeFromGitToMdx runImport
  rw [hspec]
  simp only
  rw [importOneLang_abort _ _ _ _ (by
    revert hne
    unfold langCheckErrors langGitMap langMdxMap
    exact id)]
  rfl

/-- C10 witness: the rust spec errors, so the perfectly consistent cpp
spec after it is never processed. -/
theorem c10_abort_scope_witness :
    importCodeFromGitToMdx exEnvTwoLangs ["rust:r1", "cpp:r2"] =
      ⟨[.aborted "rust" (langCheckErrors exEnvTwoLangs "rust" "r1")],
        [exDocTwoLangs]⟩ :=
  c10_abort_scope exEnvTwoLangs "rust:r1" ["cpp:r2"] "rust" "r1"
    (by decide) (by decide)

end RayTracingRoad

namespace RayTracingRoad

/-!
## Helper lemmas: the metadata regexes -/

theorem isPrefixOf_append_self (l1 l2 : List Char) :
    l1.isPrefixOf (l1 ++ l2) = true := by
  rw [List.isPrefixOf_iff_prefix]
  exact List.prefix_append l1 l2

theorem parseFilenameToken_spec (path ttl rest : String)
    (hp : path.data ≠ []) (hw : ∀ ch ∈ path.data, ch.isWhitespace = false)
    (hq : '"' ∉ ttl.data) :
    parseFilenameToken ("filename=\"" ++ path ++ " | " ++ ttl ++ "\"" ++ rest).data
      = some (path.data, ttl.data) := by
  have hd : ("filename=\"" ++ path ++ " | " ++ ttl ++ "\"" ++ rest).data
      = "filename=\"".data ++ (path.data ++ (' ' :: '|' :: ' ' ::
          (ttl.data ++ ('"' :: rest.data)))) := by
    simp only [String.data_append, List.append_assoc]
    rfl
  unfold parseFilenameToken
  rw [hd]
  simp only [isPrefixOf_append_self, if_true, List.drop_left]
  have hw' : ∀ ch ∈ path.data, (fun c => !c.isWhitespace) ch = true := by
    intro ch hch; simp [hw ch hch]
  rw [List.takeWhile_append_of_pos hw', List.takeWhile_cons_of_neg (by simp)]
  rw [List.append_nil]
  rw [if_neg (by simpa [List.isEmpty_iff] using hp)]
  rw [List.drop_left]
  have hpre : (" | " : String).data.isPrefixOf
      (' ' :: '|' :: ' ' :: (ttl.data ++ ('"' :: rest.data))) = true := by
    simp [List.isPrefixOf]
  rw [hpre]
  simp only [if_true]
  have hq' : ∀ ch ∈ ttl.data, (fun c => decide (c ≠ '"')) ch = true := by
    intro ch hch
    simp only [ne_eq, decide_eq_true_eq]
    exact fun h => hq (h ▸ hch)
  rw [show (' ' :: '|' :: ' ' :: (ttl.data ++ ('"' :: rest.data))).drop 3
      = ttl.data ++ ('"' :: rest.data) by rfl]
  rw [List.takeWhile_append_of_pos hq', List.takeWhile_cons_of_neg (by simp)]
  rw [List.append_nil, List.drop_left]
  simp

theorem wordHere_append (w b : List Char) (hb : b.head?.all Char.isWhitespace) :
    wordHere w (w ++ b) = true := by
  unfold wordHere
  rw [isPrefixOf_append_self, List.drop_left]
  cases b with
  | nil => rfl
  | cons c rest => simpa using hb

theorem hasWordAux_cons_of_aux (w : List Char) (c : Char) (l : List Char)
    (h : hasWordAux w l = true) : hasWordAux w (c :: l) = true := by
  unfold hasWordAux
  rw [h]
  simp

theorem hasWord_of_decomp (w a b : List Char)
    (ha : a.getLast?.all Char.isWhitespace) (hb : b.head?.all Char.isWhitespace) :
    hasWord w (a ++ w ++ b) = true := by
  rcases ha' : a with _ | ⟨c, as⟩
  · unfold hasWord
    rw [List.nil_append, wordHere_append w b hb]
    simp
  · have hane : a ≠ [] := by rw [ha']; simp
    rw [← ha']
    obtain ⟨last, hlast⟩ : ∃ x, a.getLast? = some x := by
      cases hgl : a.getLast? with
      | none => exact absurd (List.getLast?_eq_none_iff.mp hgl) hane
      | some x => exact ⟨x, rfl⟩
    have hlastws : last.isWhitespace = true := by
      rw [hlast] at ha; simpa using ha
    have hadecomp : a = a.dropLast ++ [last] := by
      conv_lhs => rw [← List.dropLast_concat_getLast hane]
      congr 1
      rw [List.getLast?_eq_getLast a hane] at hlast
      exact congrArg (fun x => [x]) (Option.some.inj hlast)
    rw [hadecomp, List.append_assoc, List.append_assoc]
    have hcore : hasWordAux w ([last] ++ (w ++ b)) = true := by
      rw [List.singleton_append]
      unfold hasWordAux
      simp [hlastws, wordHere_append w b hb]
    unfold hasWord
    rw [Bool.or_eq_true]
    right
    induction a.dropLast with
    | nil => simpa using hcore
    | cons x xs ih => exact hasWordAux_cons_of_aux w x _ ih

theorem findQuotedToken_skip (pat : List Char) (c : Char) (l : List Char)
    (h : pat.isPrefixOf (c :: l) = false) :
    findQuotedToken pat (c :: l) = findQuotedToken pat l := by
  conv_lhs => unfold findQuotedToken
  rw [h]
  simp [Option.orElse]

theorem findQuotedToken_here (p : Char) (ps dep rest : List Char)
    (hq : ∀ ch ∈ dep, (fun c => decide (c ≠ '"')) ch = true) :
    findQuotedToken (p :: ps) ((p :: ps) ++ (dep ++ ('"' :: rest))) = some dep := by
  conv_lhs => unfold findQuotedToken
  rw [show (p :: ps) ++ (dep ++ ('"' :: rest))
      = p :: (ps ++ (dep ++ ('"' :: rest))) from List.cons_append ..]
  simp only
  rw [← List.cons_append, isPrefixOf_append_self]
  simp only [if_true]
  rw [List.drop_left]
  rw [List.takeWhile_append_of_pos hq, List.takeWhile_cons_of_neg (by simp)]
  rw [List.append_nil, List.drop_left]
  simp [Option.orElse]

theorem findQuotedToken_skip2 (a : Char) (as : List Char) (b : Char) (l : List Char)
    (h : (a == b) = false) :
    findQuotedToken (a :: as) (b :: l) = findQuotedToken (a :: as) l :=
  findQuotedToken_skip (a :: as) b l (by rw [List.isPrefixOf_cons₂, h]; simp)

theorem findQuotedToken_skip3 (a b : Char) (as : List Char) (c d : Char)
    (l : List Char) (h : (b == d) = false) :
    findQuotedToken (a :: b :: as) (c :: d :: l) =
      findQuotedToken (a :: b :: as) (d :: l) :=
  findQuotedToken_skip (a :: b :: as) c (d :: l)
    (by rw [List.isPrefixOf_cons₂, List.isPrefixOf_cons₂, h]; simp)

theorem findQuotedToken_after_genImage (dep : String) (hq : '"' ∉ dep.data) :
    findQuotedToken "addCargoDep=\"".data
      ("genImage addCargoDep=\"" ++ dep ++ "\"").data = some dep.data := by
  have hq' : ∀ ch ∈ dep.data, (fun c => decide (c ≠ '"')) ch = true := by
    intro ch hch
    simp only [ne_eq, decide_eq_true_eq]
    exact fun h => hq (h ▸ hch)
  have hd : ("genImage addCargoDep=\"" ++ dep ++ "\"").data
      = 'g' :: 'e' :: 'n' :: 'I' :: 'm' :: 'a' :: 'g' :: 'e' :: ' ' ::
        ("addCargoDep=\"".data ++ (dep.data ++ ('"' :: []))) := by
    simp only [String.data_append]
    rfl
  have hpat : ("addCargoDep=\"" : String).data
      = 'a' :: 'd' :: 'd' :: 'C' :: 'a' :: 'r' :: 'g' :: 'o' :: 'D' :: 'e' :: 'p'
        :: '=' :: '"' :: [] := rfl
  rw [hd, hpat] at *
  rw [findQuotedToken_skip2 'a' _ 'g' _ (by decide),
    findQuotedToken_skip2 'a' _ 'e' _ (by decide),
    findQuotedToken_skip2 'a' _ 'n' _ (by decide),
    findQuotedToken_skip2 'a' _ 'I' _ (by decide),
    findQuotedToken_skip2 'a' _ 'm' _ (by decide),
    findQuotedToken_skip3 'a' 'd' _ 'a' 'g' _ (by decide),
    findQuotedToken_skip2 'a' _ 'g' _ (by decide),
    findQuotedToken_skip2 'a' _ 'e' _ (by decide),
    findQuotedToken_skip2 'a' _ ' ' _ (by decide)]
  exact findQuotedToken_here 'a' _ dep.data [] hq'

end RayTracingRoad

namespace RayTracingRoad

/-!
## C9 -/

/-- C9 (counterexample): the `filename=` token is *not* recognized
wherever it appears — its pattern is anchored at the start of the meta
string.  With `genImage` written first, the same token is no longer
parsed (title empty, block not a listing); written at the start it is. -/
theorem c9_counterexample :
    (parseMdAstNodeMeta ⟨"rust", some "genImage filename=\"a.rs | T\"", "x"⟩).title = "" ∧
    listingOfNode ⟨"rust", some "genImage filename=\"a.rs | T\"", "x"⟩ = none ∧
    (parseMdAstNodeMeta ⟨"rust", some "filename=\"a.rs | T\" genImage", "x"⟩).title = "T" :=
  ⟨by decide, by decide, by decide⟩

/-- C9 (amended): the metadata parsing rules, with the `filename=` token
anchored at the start of the annotation.  (1) A missing annotation yields
the all-default record.  (2) A block whose parse has an empty title is
silently skipped, not an error.  (3) An annotation beginning
`filename="<path> | <title>"` parses path and title, the split at the
first `" | "` after the path (the title may itself contain `" | "`).
(4) The word-bounded `genImage` flag is recognized anywhere.  (5) The
`addCargoDep="..."` token is recognized away from the start. -/
theorem c9_meta_parsing_rules :
    (∀ node : MdxNode, node.meta = none →
      parseMdAstNodeMeta node = ⟨node.lang, "", "", "", false⟩) ∧
    (∀ node : MdxNode, (parseMdAstNodeMeta node).title = "" →
      listingOfNode node = none) ∧
    (∀ (lg v path ttl rest : String),
      path.data ≠ [] → (∀ ch ∈ path.data, ch.isWhitespace = false) →
      '"' ∉ ttl.data →
      (parseMdAstNodeMeta
          ⟨lg, some ("filename=\"" ++ path ++ " | " ++ ttl ++ "\"" ++ rest), v⟩).filename
          = path ∧
      (parseMdAstNodeMeta
          ⟨lg, some ("filename=\"" ++ path ++ " | " ++ ttl ++ "\"" ++ rest), v⟩).title
          = ttl) ∧
    (∀ (lg v a b : String),
      a.data.getLast?.all Char.isWhitespace = true →
      b.data.head?.all Char.isWhitespace = true →
      (parseMdAstNodeMeta ⟨lg, some (a ++ "genImage" ++ b), v⟩).genImage = true) ∧
    (∀ (lg v dep : String), '"' ∉ dep.data →
      (parseMdAstNodeMeta
          ⟨lg, some ("genImage addCargoDep=\"" ++ dep ++ "\""), v⟩).addCargoDep = dep) := by
  refine ⟨?_, ?_, ?_, ?_, ?_⟩
  · intro node h
    unfold parseMdAstNodeMeta
    rw [h]
  · intro node h
    unfold listingOfNode
    rcases hm : node.meta with _ | m
    · simp
    · rw [if_neg (by simp [hm])]
      by_cases hl : ALLOW_LANGS.contains node.lang
      · rw [if_neg (by simpa using hl)]
        simp [h]
      · rw [if_pos (by simpa using hl)]
  · intro lg v path ttl rest hp hw hq
    have hft := parseFilenameToken_spec path ttl rest hp hw hq
    constructor <;>
    · unfold parseMdAstNodeMeta
      simp only
      rw [hft]
      rcases findQuotedToken "addCargoDep=\"".data
          ("filename=\"" ++ path ++ " | " ++ ttl ++ "\"" ++ rest).data with _ | d <;>
        rcases hasWord "genImage".data
            ("filename=\"" ++ path ++ " | " ++ ttl ++ "\"" ++ rest).data with _ | _ <;>
        simp
  · intro lg v a b ha hb
    have hword : hasWord "genImage".data (a ++ "genImage" ++ b).data = true := by
      have hd : (a ++ "genImage" ++ b).data = a.data ++ "genImage".data ++ b.data := by
        simp [String.data_append]
      rw [hd]
      exact hasWord_of_decomp _ _ _ ha hb
    unfold parseMdAstNodeMeta
    simp only
    rw [hword]
    rcases parseFilenameToken (a ++ "genImage" ++ b).data with _ | ft <;>
      rcases findQuotedToken "addCargoDep=\"".data (a ++ "genImage" ++ b).data with _ | d <;>
      simp
  · intro lg v dep hq
    have hfq := findQuotedToken_after_genImage dep hq
    have hpf : parseFilenameToken ("genImage addCargoDep=\"" ++ dep ++ "\"").data = none := by
      have hd : ("genImage addCargoDep=\"" ++ dep ++ "\"").data
          = 'g' :: ("enImage addCargoDep=\"".data ++ (dep.data ++ ['"'])) := by
        simp only [String.data_append]
        rfl
      unfold parseFilenameToken
      rw [hd]
      simp only [show ("filename=\"" : String).data.isPrefixOf
          ('g' :: ("enImage addCargoDep=\"".data ++ (dep.data ++ ['"']))) = false from rfl]
      simp
    unfold parseMdAstNodeMeta
    simp only
    rw [hfq, hpf]
    rcases hasWord "genImage".data ("genImage addCargoDep=\"" ++ dep ++ "\"").data with _ | _ <;>
      simp

/-- C9 witness. -/
theorem c9_meta_parsing_rules_witness :
    parseMdAstNodeMeta ⟨"rust", none, "x"⟩ = ⟨"rust", "", "", "", false⟩ ∧
    listingOfNode ⟨"rust", some "genImage", "x"⟩ = none ∧
    (parseMdAstNodeMeta
        ⟨"rust", some ("filename=\"" ++ "main.rs" ++ " | " ++ "T" ++ "\"" ++ ""), "x"⟩).title
        = "T" ∧
    (parseMdAstNodeMeta ⟨"rust", some ("x " ++ "genImage" ++ ""), "x"⟩).genImage = true ∧
    (parseMdAstNodeMeta
        ⟨"rust", some ("genImage addCargoDep=\"" ++ "rand" ++ "\""), "x"⟩).addCargoDep
        = "rand" := by
  have h := c9_meta_parsing_rules
  refine ⟨h.1 _ rfl, h.2.1 _ (by decide), ?_, ?_, ?_⟩
  · exact (h.2.2.1 "rust" "x" "main.rs" "T" "" (by decide) (by decide) (by decide)).2
  · exact h.2.2.2.1 "rust" "x" "x " "" (by decide) (by decide)
  · exact h.2.2.2.2 "rust" "x" "rand" (by decide)

end RayTracingRoad

namespace RayTracingRoad

/-!
## Helper lemmas: the natural sort comparator -/

theorem digit_bounds {c : Char} (h : c.isDigit = true) :
    48 ≤ c.toNat ∧ c.toNat ≤ 57 := by
  simp [Char.isDigit] at h
  rcases h with ⟨h1, h2⟩
  exact ⟨h1, h2⟩

theorem nondigit_out {c : Char} (h : c.isDigit = false) :
    c.toNat < 48 ∨ 57 < c.toNat := by
  simp [Char.isDigit] at h
  by_cases h1 : 48 ≤ c.toNat
  · exact Or.inr (h h1)
  · exact Or.inl (by omega)

theorem nat_compare_swap (m n : Nat) : compare n m = (compare m n).swap := by
  rcases Nat.lt_trichotomy m n with h | h | h
  · rw [Nat.compare_eq_lt.mpr h, Nat.compare_eq_gt.mpr h]
    rfl
  · rw [h, Nat.compare_eq_eq.mpr rfl]
    rfl
  · rw [Nat.compare_eq_gt.mpr h, Nat.compare_eq_lt.mpr h]
    rfl

theorem natCmp_nil_nil : natCmp [] [] = .eq := by simp [natCmp]

theorem natCmp_nil_cons (y : Char) (ys : List Char) :
    natCmp [] (y :: ys) = .lt := by simp [natCmp]

theorem natCmp_cons_nil (x : Char) (xs : List Char) :
    natCmp (x :: xs) [] = .gt := by simp [natCmp]

theorem natCmp_cons_digit {x y : Char} (xs ys : List Char)
    (h1 : x.isDigit = true) (h2 : y.isDigit = true) :
    natCmp (x :: xs) (y :: ys) =
      match compare (numVal ((x :: xs).takeWhile Char.isDigit))
          (numVal ((y :: ys).takeWhile Char.isDigit)) with
      | .eq => natCmp ((x :: xs).dropWhile Char.isDigit)
          ((y :: ys).dropWhile Char.isDigit)
      | o => o := by
  rw [natCmp]
  rw [if_pos (by rw [h1, h2]; rfl)]

theorem natCmp_cons_char {x y : Char} (xs ys : List Char)
    (h : (x.isDigit && y.isDigit) = false) :
    natCmp (x :: xs) (y :: ys) =
      match compare x.toNat y.toNat with
      | .eq => natCmp xs ys
      | o => o := by
  rw [natCmp]
  rw [if_neg (by rw [h]; simp)]

theorem dropWhile_length_le (p : Char → Bool) (l : List Char) :
    (l.dropWhile p).length ≤ l.length := by
  induction l with
  | nil => simp
  | cons c cs ih =>
    by_cases hc : p c
    · rw [List.dropWhile_cons_of_pos hc]
      exact Nat.le_trans ih (Nat.le_succ _)
    · rw [List.dropWhile_cons_of_neg hc]



theorem natCmp_swap (a b : List Char) : natCmp b a = (natCmp a b).swap := by
  have H : ∀ n a b, List.length a + List.length b ≤ n →
      natCmp b a = (natCmp a b).swap := by
    intro n
    induction n with
    | zero =>
      intro a b hn
      have ha : a = [] := List.length_eq_zero.mp (by omega)
      have hb : b = [] := List.length_eq_zero.mp (by omega)
      subst ha; subst hb
      rw [natCmp_nil_nil]
      rfl
    | succ n ih =>
      intro a b hn
      rcases a with _ | ⟨x, xs⟩
      · rcases b with _ | ⟨y, ys⟩
        · rw [natCmp_nil_nil]; rfl
        · rw [natCmp_nil_cons, natCmp_cons_nil]; rfl
      · rcases b with _ | ⟨y, ys⟩
        · rw [natCmp_nil_cons, natCmp_cons_nil]; rfl
        · rcases hx : x.isDigit with _ | _ <;> rcases hy : y.isDigit with _ | _
          · rw [natCmp_cons_char xs ys (by rw [hx]; rfl),
              natCmp_cons_char ys xs (by rw [hy]; rfl),
              nat_compare_swap x.toNat y.toNat]
            rcases compare x.toNat y.toNat with _ | _ | _
            · rfl
            · simp only [Ordering.swap]
              exact ih xs ys (by simp at hn ⊢; omega)
            · rfl
          · rw [natCmp_cons_char xs ys (by rw [hx]; rfl),
              natCmp_cons_char ys xs (by rw [hy, hx]; rfl),
              nat_compare_swap x.toNat y.toNat]
            rcases compare x.toNat y.toNat with _ | _ | _
            · rfl
            · simp only [Ordering.swap]
              exact ih xs ys (by simp at hn ⊢; omega)
            · rfl
          · rw [natCmp_cons_char xs ys (by rw [hx, hy]; rfl),
              natCmp_cons_char ys xs (by rw [hy]; rfl),
              nat_compare_swap x.toNat y.toNat]
            rcases compare x.toNat y.toNat with _ | _ | _
            · rfl
            · simp only [Ordering.swap]
              exact ih xs ys (by simp at hn ⊢; omega)
            · rfl
          · rw [natCmp_cons_digit xs ys hx hy, natCmp_cons_digit ys xs hy hx,
              nat_compare_swap (numVal ((x :: xs).takeWhile Char.isDigit))
                (numVal ((y :: ys).takeWhile Char.isDigit))]
            rcases compare (numVal ((x :: xs).takeWhile Char.isDigit))
                (numVal ((y :: ys).takeWhile Char.isDigit)) with _ | _ | _
            · rfl
            · simp only [Ordering.swap]
              refine ih _ _ ?_
              have l1 : ((x :: xs).dropWhile Char.isDigit).length ≤ xs.length := by
                rw [List.dropWhile_cons_of_pos hx]
                exact dropWhile_length_le _ _
              have l2 : ((y :: ys).dropWhile Char.isDigit).length ≤ ys.length := by
                rw [List.dropWhile_cons_of_pos hy]
                exact dropWhile_length_le _ _
              simp at hn
              omega
            · rfl
  exact H (a.length + b.length) a b (Nat.le_refl _)

theorem natCmp_refl (a : List Char) : natCmp a a = .eq := by
  have h := natCmp_swap a a
  rcases hc : natCmp a a with _ | _ | _
  · rw [hc] at h; exact absurd h (by simp [Ordering.swap])
  · rfl
  · rw [hc] at h; exact absurd h (by simp [Ordering.swap])



theorem natCmp_trans {a b c : List Char}
    (hab : natCmp a b ≠ .gt) (hbc : natCmp b c ≠ .gt) : natCmp a c ≠ .gt := by
  have H : ∀ n a b c, List.length a + List.length b + List.length c ≤ n →
      natCmp a b ≠ .gt → natCmp b c ≠ .gt → natCmp a c ≠ .gt := by
    intro n
    induction n with
    | zero =>
      intro a b c hn hab hbc
      have ha : a = [] := List.length_eq_zero.mp (by omega)
      have hc : c = [] := List.length_eq_zero.mp (by omega)
      subst ha; subst hc
      rw [natCmp_nil_nil]
      simp
    | succ n ih =>
      intro a b c hn hab hbc
      rcases a with _ | ⟨x, xs⟩
      · rcases c with _ | ⟨z, zs⟩
        · rw [natCmp_nil_nil]; simp
        · rw [natCmp_nil_cons]; simp
      · rcases b with _ | ⟨y, ys⟩
        · rw [natCmp_cons_nil] at hab; exact absurd rfl hab
        · rcases c with _ | ⟨z, zs⟩
          · rw [natCmp_cons_nil] at hbc; exact absurd rfl hbc
          · rcases hx : x.isDigit with _|_ <;> rcases hy : y.isDigit with _|_ <;>
              rcases hz : z.isDigit with _|_
            -- x F, y F, z F
            · rw [natCmp_cons_char xs ys (by rw [hx]; rfl)] at hab
              rw [natCmp_cons_char ys zs (by rw [hy]; rfl)] at hbc
              rw [natCmp_cons_char xs zs (by rw [hx]; rfl)]
              rcases hc1 : compare x.toNat y.toNat with _|_|_ <;> rw [hc1] at hab <;>
                rcases hc2 : compare y.toNat z.toNat with _|_|_ <;> rw [hc2] at hbc
              · rw [Nat.compare_eq_lt.mpr
                  (Nat.lt_trans (Nat.compare_eq_lt.mp hc1) (Nat.compare_eq_lt.mp hc2))]
                simp
              · rw [Nat.compare_eq_lt.mpr
                  (Nat.compare_eq_eq.mp hc2 ▸ Nat.compare_eq_lt.mp hc1)]
                simp
              · exact absurd rfl hbc
              · rw [Nat.compare_eq_lt.mpr
                  (Nat.compare_eq_eq.mp hc1 ▸ Nat.compare_eq_lt.mp hc2)]
                simp
              · rw [Nat.compare_eq_eq.mpr
                  ((Nat.compare_eq_eq.mp hc1).trans (Nat.compare_eq_eq.mp hc2))]
                simp only at hab hbc ⊢
                refine ih xs ys zs (by simp at hn; omega) hab hbc
              · exact absurd rfl hbc
              · exact absurd rfl hab
              · exact absurd rfl hab
              · exact absurd rfl hab
            -- x F, y F, z T
            · rw [natCmp_cons_char xs ys (by rw [hx]; rfl)] at hab
              rw [natCmp_cons_char ys zs (by rw [hy]; rfl)] at hbc
              rw [natCmp_cons_char xs zs (by rw [hx]; rfl)]
              have hzb := digit_bounds hz
              have hyo := nondigit_out hy
              have hxo := nondigit_out hx
              rcases hc1 : compare x.toNat y.toNat with _|_|_ <;> rw [hc1] at hab <;>
                rcases hc2 : compare y.toNat z.toNat with _|_|_ <;> rw [hc2] at hbc
              all_goals first
              | exact absurd rfl hab
              | exact absurd rfl hbc
              | (have h1 := Nat.compare_eq_lt.mp hc1
                 have h2 := Nat.compare_eq_lt.mp hc2
                 rw [Nat.compare_eq_lt.mpr (by omega)]; simp)
              | (have h2 := Nat.compare_eq_eq.mp hc2
                 exact absurd h2 (by omega))
              | (have h1 := Nat.compare_eq_eq.mp hc1
                 have h2 := Nat.compare_eq_lt.mp hc2
                 rw [Nat.compare_eq_lt.mpr (by omega)]; simp)
            -- x F, y T, z F
            · rw [natCmp_cons_char xs ys (by rw [hx]; rfl)] at hab
              rw [natCmp_cons_char ys zs (by rw [hz]; simp)] at hbc
              rw [natCmp_cons_char xs zs (by rw [hx]; rfl)]
              have hyb := digit_bounds hy
              have hxo := nondigit_out hx
              have hzo := nondigit_out hz
              rcases hc1 : compare x.toNat y.toNat with _|_|_ <;> rw [hc1] at hab <;>
                rcases hc2 : compare y.toNat z.toNat with _|_|_ <;> rw [hc2] at hbc
              all_goals first
              | exact absurd rfl hab
              | exact absurd rfl hbc
              | (have h1 := Nat.compare_eq_lt.mp hc1
                 have h2 := Nat.compare_eq_lt.mp hc2
                 rw [Nat.compare_eq_lt.mpr (by omega)]; simp)
              | (have h1 := Nat.compare_eq_lt.mp hc1
                 have h2 := Nat.compare_eq_eq.mp hc2
                 rw [Nat.compare_eq_lt.mpr (by omega)]; simp)
              | (have h1 := Nat.compare_eq_eq.mp hc1
                 exact absurd h1 (by omega))
            -- x F, y T, z T
            · rw [natCmp_cons_char xs ys (by rw [hx]; rfl)] at hab
              rw [natCmp_cons_char xs zs (by rw [hx]; rfl)]
              have hyb := digit_bounds hy
              have hzb := digit_bounds hz
              have hxo := nondigit_out hx
              rcases hc1 : compare x.toNat y.toNat with _|_|_ <;> rw [hc1] at hab
              · rw [Nat.compare_eq_lt.mpr (by
                  have h1 := Nat.compare_eq_lt.mp hc1
                  omega)]
                simp
              · have h1 := Nat.compare_eq_eq.mp hc1
                exact absurd h1 (by omega)
              · exact absurd rfl hab
            -- x T, y F, z F
            · rw [natCmp_cons_char xs ys (by rw [hy]; simp)] at hab
              rw [natCmp_cons_char ys zs (by rw [hy]; rfl)] at hbc
              rw [natCmp_cons_char xs zs (by rw [hz]; simp)]
              have hxb := digit_bounds hx
              have hyo := nondigit_out hy
              have hzo := nondigit_out hz
              rcases hc1 : compare x.toNat y.toNat with _|_|_ <;> rw [hc1] at hab <;>
                rcases hc2 : compare y.toNat z.toNat with _|_|_ <;> rw [hc2] at hbc
              all_goals first
              | exact absurd rfl hab
              | exact absurd rfl hbc
              | (have h1 := Nat.compare_eq_lt.mp hc1
                 have h2 := Nat.compare_eq_lt.mp hc2
                 rw [Nat.compare_eq_lt.mpr (by omega)]; simp)
              | (have h1 := Nat.compare_eq_lt.mp hc1
                 have h2 := Nat.compare_eq_eq.mp hc2
                 rw [Nat.compare_eq_lt.mpr (by omega)]; simp)
              | (have h1 := Nat.compare_eq_eq.mp hc1
                 exact absurd h1 (by omega))
            -- x T, y F, z T
            · rw [natCmp_cons_char xs ys (by rw [hy]; simp)] at hab
              rw [natCmp_cons_char ys zs (by rw [hy]; rfl)] at hbc
              have hxb := digit_bounds hx
              have hzb := digit_bounds hz
              have hyo := nondigit_out hy
              rcases hc1 : compare x.toNat y.toNat with _|_|_ <;> rw [hc1] at hab <;>
                rcases hc2 : compare y.toNat z.toNat with _|_|_ <;> rw [hc2] at hbc
              all_goals first
              | exact absurd rfl hab
              | exact absurd rfl hbc
              | (have h1 := Nat.compare_eq_lt.mp hc1
                 have h2 := Nat.compare_eq_lt.mp hc2
                 exact absurd h2 (by omega))
              | (have h1 := Nat.compare_eq_lt.mp hc1
                 have h2 := Nat.compare_eq_eq.mp hc2
                 exact absurd h2 (by omega))
              | (have h1 := Nat.compare_eq_eq.mp hc1
                 exact absurd h1 (by omega))
            -- x T, y T, z F
            · rw [natCmp_cons_char ys zs (by rw [hz]; simp)] at hbc
              rw [natCmp_cons_char xs zs (by rw [hz]; simp)]
              have hxb := digit_bounds hx
              have hyb := digit_bounds hy
              have hzo := nondigit_out hz
              rcases hc2 : compare y.toNat z.toNat with _|_|_ <;> rw [hc2] at hbc
              · rw [Nat.compare_eq_lt.mpr (by
                  have h2 := Nat.compare_eq_lt.mp hc2
                  omega)]
                simp
              · have h2 := Nat.compare_eq_eq.mp hc2
                exact absurd h2 (by omega)
              · exact absurd rfl hbc
            -- x T, y T, z T
            · rw [natCmp_cons_digit xs ys hx hy] at hab
              rw [natCmp_cons_digit ys zs hy hz] at hbc
              rw [natCmp_cons_digit xs zs hx hz]
              rcases hc1 : compare (numVal ((x :: xs).takeWhile Char.isDigit))
                  (numVal ((y :: ys).takeWhile Char.isDigit)) with _|_|_ <;>
                rw [hc1] at hab <;>
                rcases hc2 : compare (numVal ((y :: ys).takeWhile Char.isDigit))
                    (numVal ((z :: zs).takeWhile Char.isDigit)) with _|_|_ <;>
                rw [hc2] at hbc
              · rw [Nat.compare_eq_lt.mpr
                  (Nat.lt_trans (Nat.compare_eq_lt.mp hc1) (Nat.compare_eq_lt.mp hc2))]
                simp
              · rw [Nat.compare_eq_lt.mpr
                  (Nat.compare_eq_eq.mp hc2 ▸ Nat.compare_eq_lt.mp hc1)]
                simp
              · exact absurd rfl hbc
              · rw [Nat.compare_eq_lt.mpr
                  (Nat.compare_eq_eq.mp hc1 ▸ Nat.compare_eq_lt.mp hc2)]
                simp
              · rw [Nat.compare_eq_eq.mpr
                  ((Nat.compare_eq_eq.mp hc1).trans (Nat.compare_eq_eq.mp hc2))]
                simp only at hab hbc ⊢
                refine ih _ _ _ ?_ hab hbc
                have l1 : ((x :: xs).dropWhile Char.isDigit).length ≤ xs.length := by
                  rw [List.dropWhile_cons_of_pos hx]
                  exact dropWhile_length_le _ _
                have l2 : ((y :: ys).dropWhile Char.isDigit).length ≤ ys.length := by
                  rw [List.dropWhile_cons_of_pos hy]
                  exact dropWhile_length_le _ _
                have l3 : ((z :: zs).dropWhile Char.isDigit).length ≤ zs.length := by
                  rw [List.dropWhile_cons_of_pos hz]
                  exact dropWhile_length_le _ _
                simp at hn
                omega
              · exact absurd rfl hbc
              · exact absurd rfl hab
              · exact absurd rfl hab
              · exact absurd rfl hab
  exact H (a.length + b.length + c.length) a b c (Nat.le_refl _) hab hbc



theorem natCmp_append_left {p : List Char} (a b : List Char)
    (hp : ∀ ch ∈ p, ch.isDigit = false) :
    natCmp (p ++ a) (p ++ b) = natCmp a b := by
  induction p with
  | nil => simp
  | cons c cs ih =>
    have hc : c.isDigit = false := hp c (List.mem_cons_self c cs)
    rw [List.cons_append, List.cons_append,
      natCmp_cons_char (cs ++ a) (cs ++ b) (by rw [hc]; rfl),
      Nat.compare_eq_eq.mpr rfl]
    exact ih (fun ch hch => hp ch (List.mem_cons_of_mem c hch))

theorem natCmp_digit_lt {x y : Char} (xs ys : List Char)
    (hx : x.isDigit = true) (hy : y.isDigit = true)
    (hv : numVal ((x :: xs).takeWhile Char.isDigit)
      < numVal ((y :: ys).takeWhile Char.isDigit)) :
    natCmp (x :: xs) (y :: ys) = .lt := by
  rw [natCmp_cons_digit xs ys hx hy, Nat.compare_eq_lt.mpr hv]

/-- The comparator facts needed by the sorting lemmas. -/
theorem docLe_total (a b : MdxDoc) : docLe a b ∨ docLe b a := by
  unfold docLe natLe
  rcases h : natCmp a.filename.data b.filename.data with _ | _ | _
  · left; rfl
  · left; rfl
  · right
    rw [natCmp_swap, h]
    rfl

theorem docLe_trans (a b c : MdxDoc) (h1 : docLe a b) (h2 : docLe b c) :
    docLe a c := by
  unfold docLe natLe at *
  have h1' : natCmp a.filename.data b.filename.data ≠ .gt := by
    intro h; rw [h] at h1; exact absurd h1 (by decide)
  have h2' : natCmp b.filename.data c.filename.data ≠ .gt := by
    intro h; rw [h] at h2; exact absurd h2 (by decide)
  have := natCmp_trans h1' h2'
  rcases h : natCmp a.filename.data c.filename.data with _ | _ | _
  · rfl
  · rfl
  · exact absurd h this

/-!
## C8 -/

/-- C8: for two documents whose paths carry chapter numbers m < n under
the natural numeric comparison (leading digit runs compared by value), the
per-language listing collection decomposes so that every listing extracted
from the first document precedes every listing extracted from the
second. -/
theorem c8_listing_order (docs : List MdxDoc) (lang : String) (A B : MdxDoc)
    (hA : A ∈ docs) (hB : B ∈ docs)
    (ca cb : Char) (pa pb : List Char)
    (hAn : A.filename.data = "pages/".data ++ (ca :: pa))
    (hBn : B.filename.data = "pages/".data ++ (cb :: pb))
    (hca : ca.isDigit = true) (hcb : cb.isDigit = true)
    (hm : numVal ((ca :: pa).takeWhile Char.isDigit)
      < numVal ((cb :: pb).takeWhile Char.isDigit)) :
    ∃ p q s, getMdxListingsByLang docs lang =
      p ++ (extractListings A).filter (fun l => l.lang == lang) ++
      q ++ (extractListings B).filter (fun l => l.lang == lang) ++ s := by
  have hlt : natCmp A.filename.data B.filename.data = .lt := by
    rw [hAn, hBn, natCmp_append_left _ _ (by decide)]
    exact natCmp_digit_lt pa pb hca hcb hm
  have hAB : docLe A B := by
    unfold docLe natLe
    rw [hlt]
    decide
  have hnBA : ¬ docLe B A := by
    unfold docLe natLe
    rw [natCmp_swap, hlt]
    decide
  haveI htot : IsTotal MdxDoc docLe := ⟨docLe_total⟩
  haveI htr : IsTrans MdxDoc docLe := ⟨docLe_trans⟩
  have hsorted : List.Sorted docLe (getSortedMdxDocs docs) :=
    List.sorted_insertionSort docLe docs
  have hmemA : A ∈ getSortedMdxDocs docs :=
    (List.perm_insertionSort docLe docs).mem_iff.mpr hA
  have hmemB : B ∈ getSortedMdxDocs docs :=
    (List.perm_insertionSort docLe docs).mem_iff.mpr hB
  rcases List.append_of_mem hmemA with ⟨s1, s2, hdecomp⟩
  have hBs2 : B ∈ s2 := by
    rcases List.mem_append.mp (hdecomp ▸ hmemB) with h1 | h2
    · exfalso
      have : docLe B A := by
        have := hsorted
        rw [hdecomp] at this
        rcases List.pairwise_append.mp this with ⟨_, hsA, hrel⟩
        exact hrel B h1 A (List.mem_cons_self _ _)
      exact hnBA this
    · rcases List.mem_cons.mp h2 with h3 | h4
      · exfalso
        apply hnBA
        rw [h3]
        unfold docLe natLe
        rw [natCmp_refl]
        decide
      · exact h4
  rcases List.append_of_mem hBs2 with ⟨u, v, hs2⟩
  refine ⟨(s1.flatMap extractListings).filter (fun l => l.lang == lang),
    (u.flatMap extractListings).filter (fun l => l.lang == lang),
    (v.flatMap extractListings).filter (fun l => l.lang == lang), ?_⟩
  unfold getMdxListingsByLang
  rw [hdecomp, hs2]
  simp [List.flatMap_append, List.filter_append]

end RayTracingRoad

namespace RayTracingRoad

/-- C8 witness: chapter 9 before chapter 10 even though "10" is
lexicographically smaller. -/
theorem c8_listing_order_witness :
    ∃ p q s, getMdxListingsByLang
        [⟨"pages/10-y.mdx", []⟩, ⟨"pages/9-x.mdx", []⟩] "rust" =
      p ++ (extractListings (⟨"pages/9-x.mdx", []⟩ : MdxDoc)).filter
          (fun l => l.lang == "rust") ++
      q ++ (extractListings (⟨"pages/10-y.mdx", []⟩ : MdxDoc)).filter
          (fun l => l.lang == "rust") ++ s :=
  c8_listing_order [⟨"pages/10-y.mdx", []⟩, ⟨"pages/9-x.mdx", []⟩] "rust"
    ⟨"pages/9-x.mdx", []⟩ ⟨"pages/10-y.mdx", []⟩
    (by simp) (by simp)
    '9' '1' "-x.mdx".data ("0-y.mdx".data)
    (by decide) (by decide) (by decide) (by decide) (by decide)

end RayTracingRoad
